import Mathlib

/-!
# Verification of the reference RPMD integrator kernel

A shallow embedding of `ReferenceRpmdKernels.cpp` (the reference-platform
ring-polymer molecular-dynamics integrator kernel) together with theorems
settling the specification claims about it.

Machine floating-point numbers are modelled by real numbers `ℝ` (and the
C++ `complex<double>` arrays by `ℂ`); machine integers by `ℕ`/`ℤ` with the
bounds made explicit where they matter.  The random-number source is
modelled as a stream `rng : ℕ → ℝ` of draws consumed in order, and the
external physics engine as a function parameter.  Imperative loops that
mutate arrays in place are embedded as folds over the iteration range with
`Function.update`, preserving the source's statement order.
-/

open Finset

namespace Rpmd

/-! ## Discrete transforms

The FFT primitive (`pocketfft`) is an external header, not part of this
repository; only its semantics are specified.  Modelled from the spec:
`pocketfft::c2c` with scale 1 is the unnormalized discrete Fourier
transform, `e^(-2πi jk/P)` convention in the forward direction and
`e^(+2πi jk/P)` in the backward direction. -/

/-- Forward complex FFT of length `P`, unit scale (as invoked by the kernel:
`pocketfft::c2c(..., true, ..., 1.0, 1)`). -/

noncomputable def dftFwd (P : ℕ) (x : ℕ → ℂ) : ℕ → ℂ := fun k =>
  ∑ j ∈ Finset.range P, x j * Complex.exp (-(2 * Real.pi * Complex.I) * j * k / P)

/-- Backward complex FFT of length `P`, unit scale (as invoked by the kernel:
`pocketfft::c2c(..., false, ..., 1.0, 1)`). -/

noncomputable def dftInv (P : ℕ) (x : ℕ → ℂ) : ℕ → ℂ := fun k =>
  ∑ j ∈ Finset.range P, x j * Complex.exp ((2 * Real.pi * Complex.I) * j * k / P)

/-! ## Free ring-polymer drift, closed path

Embedding of the frequency-domain evolution loop of
`ReferenceIntegrateRPMDStepKernel::executeClosedPath` (lines 190–199):

```
q[0] += v[0]*dt;
for (int k = 1; k < numCopies; k++) {
    const double wk = twown*sin(k*M_PI/numCopies);
    const double wt = wk*dt;
    const double coswt = cos(wt);
    const double sinwt = sin(wt);
    const complex<double> vprime = v[k]*coswt - q[k]*(wk*sinwt);
    q[k] = v[k]*(sinwt/wk) + q[k]*coswt;
    v[k] = vprime;
}
```
-/

/-- One iteration of the mode-evolution loop: the new velocity is computed
into the temporary `vprime` first, then `q[k]` is assigned from the old
`v[k]`, then `v[k]` is assigned from the temporary. -/

noncomputable def driftModeStep (P : ℕ) (twown dt : ℝ) (s : (ℕ → ℂ) × (ℕ → ℂ)) (k : ℕ) :
    (ℕ → ℂ) × (ℕ → ℂ) :=
  let wk : ℝ := twown * Real.sin (k * Real.pi / P)
  let wt : ℝ := wk * dt
  let coswt : ℝ := Real.cos wt
  let sinwt : ℝ := Real.sin wt
  let q := s.1
  let v := s.2
  let vprime : ℂ := v k * (coswt : ℂ) - q k * ((wk * sinwt : ℝ) : ℂ)
  (Function.update q k (v k * ((sinwt / wk : ℝ) : ℂ) + q k * (coswt : ℂ)),
   Function.update v k vprime)

/-- The full mode-domain drift: the centroid update `q[0] += v[0]*dt`
followed by the loop over modes `k ∈ [1, P)`. -/

noncomputable def driftClosed (P : ℕ) (twown dt : ℝ) (q v : ℕ → ℂ) :
    (ℕ → ℂ) × (ℕ → ℂ) :=
  (List.range' 1 (P - 1)).foldl (driftModeStep P twown dt)
    (Function.update q 0 (q 0 + v 0 * (dt : ℂ)), v)

/-! ## PILE-L thermostat, closed path, internal-mode loop

Embedding of the internal-mode loop of
`ReferenceIntegrateRPMDStepKernel::executeClosedPath` (lines 152–163):

```
for (int k = 1; k <= numCopies/2; k++) {
    const bool isCenter = (numCopies%2 == 0 && k == numCopies/2);
    const double wk = twown*sin(k*M_PI/numCopies);
    const double c1 = exp(-2.0*wk*halfdt);
    const double c2 = sqrt((1.0-c1*c1)/2) * (isCenter ? sqrt(2.0) : 1.0);
    const double c3 = c2*sqrt(nkT/system.getParticleMass(particle));
    double rand1 = c3*getNormallyDistributedRandomNumber();
    double rand2 = (isCenter ? 0.0 : c3*getNormallyDistributedRandomNumber());
    v[k] = v[k]*c1 + complex<double>(rand1, rand2);
    if (k < numCopies-k)
        v[numCopies-k] = v[numCopies-k]*c1 + complex<double>(rand1, -rand2);
}
```

The global normal stream is modelled by `rng : ℕ → ℝ` and a cursor carried
in the fold state; each `getNormallyDistributedRandomNumber()` call reads
`rng` at the cursor and advances it. -/

/-- `isCenter` in the source: `numCopies%2 == 0 && k == numCopies/2`
(the Nyquist bin of the real FFT). -/

def isNyquist (P k : ℕ) : Prop := P % 2 = 0 ∧ k = P / 2

instance (P k : ℕ) : Decidable (isNyquist P k) := by
  unfold isNyquist; infer_instance

/-- `c1 = exp(-2.0*wk*halfdt)` with `wk = twown*sin(k*M_PI/numCopies)`. -/

noncomputable def pileC1 (P : ℕ) (twown halfdt : ℝ) (k : ℕ) : ℝ :=
  Real.exp (-(2 * (twown * Real.sin (k * Real.pi / P)) * halfdt))

/-- `c3 = c2*sqrt(nkT/mass)` with
`c2 = sqrt((1.0-c1*c1)/2) * (isCenter ? sqrt(2.0) : 1.0)`. -/

noncomputable def pileC3 (P : ℕ) (twown halfdt nkT mass : ℝ) (k : ℕ) : ℝ :=
  Real.sqrt ((1 - pileC1 P twown halfdt k * pileC1 P twown halfdt k) / 2)
    * (if isNyquist P k then Real.sqrt 2 else 1) * Real.sqrt (nkT / mass)

/-- The complex noise `(rand1, rand2)` added to mode `k`, when the stream
cursor stands at `idx`:  `rand1 = c3·ξ₁` and `rand2 = 0` at the Nyquist bin,
`c3·ξ₂` otherwise. -/

noncomputable def pileFresh (P : ℕ) (twown halfdt nkT mass : ℝ) (rng : ℕ → ℝ)
    (k idx : ℕ) : ℂ :=
  ⟨pileC3 P twown halfdt nkT mass k * rng idx,
   if isNyquist P k then 0 else pileC3 P twown halfdt nkT mass k * rng (idx + 1)⟩

/-- One iteration of the internal-mode thermostat loop.  The state carries
the mode array and the stream cursor. -/

noncomputable def pileModeStep (P : ℕ) (twown halfdt nkT mass : ℝ) (rng : ℕ → ℝ)
    (s : (ℕ → ℂ) × ℕ) (k : ℕ) : (ℕ → ℂ) × ℕ :=
  let c1 : ℝ := pileC1 P twown halfdt k
  let c3 : ℝ := pileC3 P twown halfdt nkT mass k
  let rand1 : ℝ := c3 * rng s.2
  let rand2 : ℝ := if isNyquist P k then 0 else c3 * rng (s.2 + 1)
  let v := s.1
  let v1 := Function.update v k (v k * (c1 : ℂ) + ⟨rand1, rand2⟩)
  let v2 := if k < P - k
    then Function.update v1 (P - k) (v1 (P - k) * (c1 : ℂ) + ⟨rand1, -rand2⟩)
    else v1
  (v2, s.2 + if isNyquist P k then 1 else 2)

/-- The internal-mode loop `for (k = 1; k <= numCopies/2; k++)`. -/

noncomputable def pileLoop (P : ℕ) (twown halfdt nkT mass : ℝ) (rng : ℕ → ℝ)
    (v : ℕ → ℂ) (i0 : ℕ) : (ℕ → ℂ) × ℕ :=
  (List.range' 1 (P / 2)).foldl (pileModeStep P twown halfdt nkT mass rng) (v, i0)

/-! ## Ring-polymer contraction, closed path

Embedding of the per-component contraction pipeline of
`ReferenceIntegrateRPMDStepKernel::computeForcesClosedPath`
(lines 456–507).  Positions direction:

```
for (int k = 0; k < totalCopies; k++) q[k] = complex(positions[k][...], 0.0);
fft_forward(totalCopies, q);
if (copies > 1) {
    int start = (copies+1)/2;
    int end = totalCopies-copies+start;
    for (int k = end; k < totalCopies; k++) q[k-(totalCopies-copies)] = q[k];
    fft_backward(copies, q);
}
for (int k = 0; k < copies; k++) contractedPositions[k][...] = scale1*q[k].real();
```

Forces direction:

```
for (int k = 0; k < copies; k++) q[k] = complex(contractedForces[k][...], 0.0);
if (copies > 1) fft_forward(copies, q);
int start = (copies+1)/2;
int end = totalCopies-copies+start;
for (int k = end; k < totalCopies; k++) q[k] = q[k-(totalCopies-copies)];
for (int k = start; k < end; k++) q[k] = complex(0, 0);
fft_backward(totalCopies, q);
for (int k = 0; k < totalCopies; k++) forces[k][...] += scale2*q[k].real();
```

with `scale1 = 1.0/totalCopies` and `scale2 = 1.0/copies`.  The in-place
shifting loops are embedded as folds; entries of `q` above the length of
the most recent transform are never read before being overwritten, so
representing the buffer as a total function is faithful. -/

/-- The positions-direction packing loop
`for (k = end; k < P; k++) q[k-(P-Pc)] = q[k]`. -/

noncomputable def packShift (P Pc : ℕ) (q : ℕ → ℂ) : ℕ → ℂ :=
  (List.range' (P - Pc + (Pc + 1) / 2) (P - (P - Pc + (Pc + 1) / 2))).foldl
    (fun q k => Function.update q (k - (P - Pc)) (q k)) q

/-- The forces-direction unpacking loop
`for (k = end; k < P; k++) q[k] = q[k-(P-Pc)]`. -/

noncomputable def unpackShift (P Pc : ℕ) (q : ℕ → ℂ) : ℕ → ℂ :=
  (List.range' (P - Pc + (Pc + 1) / 2) (P - (P - Pc + (Pc + 1) / 2))).foldl
    (fun q k => Function.update q k (q (k - (P - Pc)))) q

/-- The middle-bin clearing loop `for (k = start; k < end; k++) q[k] = 0`. -/

noncomputable def zeroMid (P Pc : ℕ) (q : ℕ → ℂ) : ℕ → ℂ :=
  (List.range' ((Pc + 1) / 2) (P - Pc)).foldl
    (fun q k => Function.update q k 0) q

/-- Positions contraction `P → Pc` of one Cartesian component. -/

noncomputable def contractPos (P Pc : ℕ) (x : ℕ → ℝ) : ℕ → ℝ :=
  let q1 := dftFwd P (fun k => ((x k : ℝ) : ℂ))
  let q2 := if 1 < Pc then dftInv Pc (packShift P Pc q1) else q1
  fun k => (1 / (P : ℝ)) * (q2 k).re

/-- Forces extension `Pc → P` of one Cartesian component: the result is
*added* to the full-`P` forces `F`. -/

noncomputable def extendForces (P Pc : ℕ) (g : ℕ → ℝ) (F : ℕ → ℝ) : ℕ → ℝ :=
  let q1 := if 1 < Pc then dftFwd Pc (fun k => ((g k : ℝ) : ℂ))
            else fun k => ((g k : ℝ) : ℂ)
  let q4 := dftInv P (zeroMid P Pc (unpackShift P Pc q1))
  fun k => F k + (1 / (Pc : ℝ)) * (q4 k).re

/-- Which source bin the packed buffer entry `j` holds (from the shifting
loop's index arithmetic: entries below `start = (Pc+1)/2` stay put, the
rest come from `P−Pc` places higher). -/

def binMap (P Pc j : ℕ) : ℕ := if j < (Pc + 1) / 2 then j else j + (P - Pc)

/-- The set of length-`P` spectrum bins retained by the positions packing. -/

def keptBins (P Pc : ℕ) : Finset ℕ := (Finset.range Pc).image (binMap P Pc)

/-- Modelled from the spec: the bins the claim says are kept,
`[0, ⌈(P'+1)/2⌉) ∪ [P−P'+⌈(P'+1)/2⌉, P)` with real ceiling division
(`⌈(P'+1)/2⌉ = (P'+2)/2` in integer arithmetic). -/

def claimKeptBins (P Pc : ℕ) : Finset ℕ :=
  Finset.range ((Pc + 2) / 2) ∪ Finset.Ico (P - Pc + (Pc + 2) / 2) P

/-! ## Contraction-schedule construction

Embedding of `ReferenceIntegrateRPMDStepKernel::initialize` (lines 76–97):

```
groupsNotContracted = -1;
const map<int, int>& contractions = integrator.getContractions();
int maxContractedCopies = 0;
for (auto& c : contractions) {
    int group = c.first;
    int copies = c.second;
    if (group < 0 || group > 31)
        throw OpenMMException("RPMDIntegrator: Force group must be between 0 and 31");
    if (copies < 0 || copies > numCopies)
        throw OpenMMException("RPMDIntegrator: Number of copies for contraction cannot be greater than the total number of copies being simulated");
    if (copies != numCopies) {
        if (groupsByCopies.find(copies) == groupsByCopies.end()) {
            groupsByCopies[copies] = 1<<group;
            if (copies > maxContractedCopies)
                maxContractedCopies = copies;
        }
        else
            groupsByCopies[copies] |= 1<<group;
        groupsNotContracted -= 1<<group;
    }
}
groupsNotContracted &= integrator.getIntegrationForceGroups();
```

The C++ `int` bitmask `-1` is modelled as the 32-bit all-ones value
`2^32 − 1`; `groupsByCopies` (a `std::map<int,int>`) as an association
list keyed by the copy count; the input `contractions` map as the list of
its entries `(group, copies)`, whose keys are distinct
(`std::map` invariant), expressed as a `Nodup` hypothesis where needed. -/

structure ScheduleState where
  groupsByCopies : List (ℤ × ℕ)
  groupsNotContracted : ℕ
  maxContractedCopies : ℤ
  deriving DecidableEq, Repr

def initState : ScheduleState := ⟨[], 2 ^ 32 - 1, 0⟩

def errGroup : String := "RPMDIntegrator: Force group must be between 0 and 31"

def errCopies : String :=
  "RPMDIntegrator: Number of copies for contraction cannot be greater than the total number of copies being simulated"

/-- One iteration of the contraction-building loop. -/

def addContraction (numCopies : ℤ) (st : ScheduleState) (c : ℤ × ℤ) :
    Except String ScheduleState :=
  let group := c.1
  let copies := c.2
  if group < 0 ∨ group > 31 then .error errGroup
  else if copies < 0 ∨ copies > numCopies then .error errCopies
  else if copies ≠ numCopies then
    let bit : ℕ := 2 ^ group.toNat
    match st.groupsByCopies.lookup copies with
    | none =>
        .ok { groupsByCopies := st.groupsByCopies ++ [(copies, bit)]
              groupsNotContracted := st.groupsNotContracted - bit
              maxContractedCopies :=
                if copies > st.maxContractedCopies then copies
                else st.maxContractedCopies }
    | some _ =>
        .ok { groupsByCopies := st.groupsByCopies.map
                (fun p => if p.1 = copies then (p.1, p.2 ||| bit) else p)
              groupsNotContracted := st.groupsNotContracted - bit
              maxContractedCopies := st.maxContractedCopies }
  else .ok st

/-- The schedule construction of `initialize`: fold the loop over the
contraction entries, then mask `groupsNotContracted` with the integrator's
active groups. -/

def buildSchedule (numCopies : ℤ) (integrationGroups : ℕ)
    (contractions : List (ℤ × ℤ)) : Except String ScheduleState :=
  (contractions.foldlM (addContraction numCopies) initState).map
    (fun st => { st with
      groupsNotContracted := st.groupsNotContracted &&& integrationGroups })

/-- The union (bitwise or) of all contraction masks in the schedule. -/

def maskUnion (l : List (ℤ × ℕ)) : ℕ := l.foldr (fun p a => p.2 ||| a) 0

/-- The induction invariant for the schedule-building fold: `A` is the set
of bits of the groups contracted so far; `assign` records which group bits
each mask holds, keyed by the copy count. -/

def Inv (st : ScheduleState) (A : Finset ℕ) (assign : ℤ → Finset ℕ) : Prop :=
  A ⊆ Finset.range 32
  ∧ st.groupsNotContracted = ∑ b ∈ Finset.range 32 \ A, 2 ^ b
  ∧ (∀ p ∈ st.groupsByCopies, p.2 = ∑ b ∈ assign p.1, 2 ^ b)
  ∧ (∀ p ∈ st.groupsByCopies, assign p.1 ⊆ A)
  ∧ List.Pairwise (fun p q : ℤ × ℕ => Disjoint (assign p.1) (assign q.1))
      st.groupsByCopies
  ∧ (∀ b ∈ A, ∃ p ∈ st.groupsByCopies, b ∈ assign p.1)
  ∧ (st.groupsByCopies.map Prod.fst).Nodup

/-! ## Physical constants (§3 of the data model) -/

noncomputable def AVOGADRO : ℝ := 6.02214076e23

noncomputable def BOLTZMANN : ℝ := 1.380649e-23

noncomputable def BOLTZ : ℝ := BOLTZMANN * AVOGADRO / 1000

/-- `hbar = 1.054571628e-34*AVOGADRO/(1000*1e-12)` (lines 128, 282). -/

noncomputable def hbar : ℝ := 1.054571628e-34 * AVOGADRO / (1000 * 1e-12)

/-! ## Open-path transforms

Modelled from the spec: the external DCT primitive (§4.1) — orthonormal
DCT-II forward and DCT-III inverse, as produced by
`pocketfft::dct(..., 2/3, ..., fct = 1/√(2P), ortho = true, ...)`. -/

noncomputable def dct2o (P : ℕ) (x : ℕ → ℝ) : ℕ → ℝ := fun k =>
  Real.sqrt (2 / P) * (if k = 0 then 1 / Real.sqrt 2 else 1)
    * ∑ j ∈ Finset.range P, x j * Real.cos (Real.pi * k * (2 * j + 1) / (2 * P))

noncomputable def dct3o (P : ℕ) (x : ℕ → ℝ) : ℕ → ℝ := fun k =>
  ∑ j ∈ Finset.range P, Real.sqrt (2 / P) * (if j = 0 then 1 / Real.sqrt 2 else 1)
    * x j * Real.cos (Real.pi * j * (2 * k + 1) / (2 * P))

/-! ## Per-particle state-level stages

The three `P×N` arrays of the ensemble are modelled as functions
`bead → particle → component → ℝ`.  The global normal stream is a single
`rng : ℕ → ℝ`; each massive particle's component consumes a contiguous
block of `P` draws per thermostat application, so particle `j`, component
`c` starts at `P * (3 * massiveBefore j + c)`. -/

open Classical in

/-- The number of nonzero-mass particles below `j` (these consumed random
draws before particle `j` in the thermostat's sequential loop). -/

noncomputable def massiveBefore (mass : ℕ → ℝ) (j : ℕ) : ℕ :=
  ((Finset.range j).filter (fun p => mass p ≠ 0)).card

open Classical in

/-- The velocity half-kick
`velocities[i][j] += forces[i][j]*(halfdt/mass[j])` for massive particles
(identical in the closed and open paths; lines 173–176, 327–331). -/

noncomputable def kickVelocities (P N : ℕ) (mass : ℕ → ℝ) (halfdt : ℝ)
    (vel F : ℕ → ℕ → ℕ → ℝ) : ℕ → ℕ → ℕ → ℝ := fun i j c =>
  if i < P ∧ j < N ∧ mass j ≠ 0 then vel i j c + F i j c * (halfdt / mass j)
  else vel i j c

open Classical in

/-- The closed-path PILE-L thermostat applied to the velocities
(lines 136–168): forward FFT of the scaled velocities, centroid update of
the real part only, internal-mode loop, inverse FFT, scale.  Zero-mass
particles are skipped. -/

noncomputable def thermostatClosedVel (P N : ℕ) (mass : ℕ → ℝ)
    (nkT twown halfdt friction : ℝ) (rng : ℕ → ℝ) (vel : ℕ → ℕ → ℕ → ℝ) :
    ℕ → ℕ → ℕ → ℝ := fun i j c =>
  if i < P ∧ j < N ∧ mass j ≠ 0 then
    let scale : ℝ := 1 / Real.sqrt P
    let c1_0 := Real.exp (-(halfdt * friction))
    let c2_0 := Real.sqrt (1 - c1_0 * c1_0)
    let c3_0 := c2_0 * Real.sqrt (nkT / mass j)
    let base := P * (3 * massiveBefore mass j + c)
    let vf := dftFwd P (fun k => ((scale * vel k j c : ℝ) : ℂ))
    let v0 := Function.update vf 0 ⟨(vf 0).re * c1_0 + c3_0 * rng base, (vf 0).im⟩
    scale * (dftInv P (pileLoop P twown halfdt nkT (mass j) rng v0 (base + 1)).1 i).re
  else vel i j c

open Classical in

/-- The closed-path free-polymer drift at the ensemble level
(lines 180–207): forward FFT of scaled positions and velocities, the mode
evolution `driftClosed`, inverse FFT, scale.  Zero-mass particles are
skipped. -/

noncomputable def driftClosedState (P N : ℕ) (mass : ℕ → ℝ) (twown dt : ℝ)
    (pos vel : ℕ → ℕ → ℕ → ℝ) :
    (ℕ → ℕ → ℕ → ℝ) × (ℕ → ℕ → ℕ → ℝ) :=
  (fun i j c =>
    if i < P ∧ j < N ∧ mass j ≠ 0 then
      (1 / Real.sqrt P) * (dftInv P (driftClosed P twown dt
        (dftFwd P (fun k => (((1 / Real.sqrt P) * pos k j c : ℝ) : ℂ)))
        (dftFwd P (fun k => (((1 / Real.sqrt P) * vel k j c : ℝ) : ℂ)))).1 i).re
    else pos i j c,
   fun i j c =>
    if i < P ∧ j < N ∧ mass j ≠ 0 then
      (1 / Real.sqrt P) * (dftInv P (driftClosed P twown dt
        (dftFwd P (fun k => (((1 / Real.sqrt P) * pos k j c : ℝ) : ℂ)))
        (dftFwd P (fun k => (((1 / Real.sqrt P) * vel k j c : ℝ) : ℂ)))).2 i).re
    else vel i j c)

/-- One mode step of the open-path drift (lines 346–355); same shape as
the closed path but real-valued with `ωₖ = ωₙ·sin(kπ/(2P))`. -/

noncomputable def driftOpenModeStep (P : ℕ) (twown dt : ℝ)
    (s : (ℕ → ℝ) × (ℕ → ℝ)) (k : ℕ) : (ℕ → ℝ) × (ℕ → ℝ) :=
  let wk := twown * Real.sin (k * Real.pi / P / 2)
  let wt := wk * dt
  let coswt := Real.cos wt
  let sinwt := Real.sin wt
  let vprime := s.2 k * coswt - s.1 k * (wk * sinwt)
  (Function.update s.1 k (s.2 k * (sinwt / wk) + s.1 k * coswt),
   Function.update s.2 k vprime)

noncomputable def driftOpenPair (P : ℕ) (twown dt : ℝ) (q v : ℕ → ℝ) :
    (ℕ → ℝ) × (ℕ → ℝ) :=
  (List.range' 1 (P - 1)).foldl (driftOpenModeStep P twown dt)
    (Function.update q 0 (q 0 + v 0 * dt), v)

open Classical in

/-- The open-path drift at the ensemble level (lines 334–364): DCT-II,
mode evolution, DCT-III. -/

noncomputable def driftOpenState (P N : ℕ) (mass : ℕ → ℝ) (twown dt : ℝ)
    (pos vel : ℕ → ℕ → ℕ → ℝ) :
    (ℕ → ℕ → ℕ → ℝ) × (ℕ → ℕ → ℕ → ℝ) :=
  (fun i j c =>
    if i < P ∧ j < N ∧ mass j ≠ 0 then
      dct3o P (driftOpenPair P twown dt (dct2o P (fun k => pos k j c))
        (dct2o P (fun k => vel k j c))).1 i
    else pos i j c,
   fun i j c =>
    if i < P ∧ j < N ∧ mass j ≠ 0 then
      dct3o P (driftOpenPair P twown dt (dct2o P (fun k => pos k j c))
        (dct2o P (fun k => vel k j c))).2 i
    else vel i j c)

open Classical in

/-- The open-path PILE thermostat (lines 292–323): DCT-II, centroid
update, per-mode critically damped update (one real draw per internal
mode), DCT-III. -/

noncomputable def thermostatOpenVel (P N : ℕ) (mass : ℕ → ℝ)
    (nkT twown halfdt friction : ℝ) (rng : ℕ → ℝ) (vel : ℕ → ℕ → ℕ → ℝ) :
    ℕ → ℕ → ℕ → ℝ := fun i j c =>
  if i < P ∧ j < N ∧ mass j ≠ 0 then
    let c1_0 := Real.exp (-(halfdt * friction))
    let c2_0 := Real.sqrt (1 - c1_0 * c1_0)
    let c3_0 := c2_0 * Real.sqrt (nkT / mass j)
    let base := P * (3 * massiveBefore mass j + c)
    let v1 := dct2o P (fun k => vel k j c)
    let v2 := Function.update v1 0 (v1 0 * c1_0 + c3_0 * rng base)
    let v3 := (List.range' 1 (P - 1)).foldl (fun (v : ℕ → ℝ) (k : ℕ) =>
      let wk := twown * Real.sin (k * Real.pi / P / 2)
      let c1 := Real.exp (-(2 * wk * halfdt))
      let c2 := Real.sqrt (1 - c1 * c1)
      let c3 := c2 * Real.sqrt (nkT / mass j)
      Function.update v k (v k * c1 + c3 * rng (base + k))) v2
    dct3o P v3 i
  else vel i j c

/-! ## Open-path force computation and step (C4, C6)

The external physics engine is a parameter `engine` from staged positions
to forces; `updateContextState` is modelled as the identity and the
periodic box as fixed, so the barostat error cannot fire.  An error is a
`some msg` component carried beside the state: C++ `throw` leaves the
already-performed mutations of the member arrays in place, which the pair
`(state, some msg)` preserves. -/

structure OpenState where
  positions : ℕ → ℕ → ℕ → ℝ
  velocities : ℕ → ℕ → ℕ → ℝ
  forces : ℕ → ℕ → ℕ → ℝ

/-- The full-`P` gathering pass of `computeForcesOpenPath` (lines
520–535): stage each bead's positions, evaluate with the non-contracted
group mask, store the forces. -/

def gatherForces (P N : ℕ) (engine : (ℕ → ℕ → ℝ) → ℕ → ℕ → ℝ)
    (s : OpenState) : OpenState :=
  { s with forces := fun i j c =>
      if i < P ∧ j < N then engine (s.positions i) j c else s.forces i j c }

/-- The endpoint correction (lines 538–541), exactly as the source's two
sequential per-particle multiplications
`forces[0][i] *= 0.5; forces[totalCopies-1][i] *= 0.5`
(for `P = 1` both write bead 0, which is therefore scaled twice). -/

def halveEndpoints (P N : ℕ) (F : ℕ → ℕ → ℕ → ℝ) : ℕ → ℕ → ℕ → ℝ :=
  let F1 := fun i j c => if i = 0 ∧ j < N then 0.5 * F i j c else F i j c
  fun i j c => if i = P - 1 ∧ j < N then 0.5 * F1 i j c else F1 i j c

def errOpenContraction : String := "Contractions are not implemented for LePIGS!"

/-- `computeForcesOpenPath` (lines 511–615): the full-`P` pass, the
endpoint halving, then the loop over contractions whose body begins with
an unconditional `throw` — the error fires iff the schedule is non-empty,
*after* the forces have been mutated. -/

def computeForcesOpenPath (P N : ℕ) (engine : (ℕ → ℕ → ℝ) → ℕ → ℕ → ℝ)
    (schedule : List (ℤ × ℕ)) (s : OpenState) : OpenState × Option String :=
  let s1 := gatherForces P N engine s
  let s2 := { s1 with forces := halveEndpoints P N s1.forces }
  match schedule with
  | [] => (s2, none)
  | _ :: _ => (s2, some errOpenContraction)

/-- Error-propagating sequencing: once a stage has thrown, the remaining
stages of the step do not run. -/

def andThen (r : OpenState × Option String)
    (f : OpenState → OpenState × Option String) : OpenState × Option String :=
  match r.2 with
  | some _ => r
  | none => f r.1

def pureStep (f : OpenState → OpenState) (s : OpenState) :
    OpenState × Option String := (f s, none)

open Classical in

/-- `executeOpenPath` (lines 263–415): optional initial force computation,
thermostat, half-kick, drift, force computation, half-kick, thermostat.
The second thermostat application continues the global stream after the
`3·P·(#massive particles)` draws of the first. -/

noncomputable def executeOpenPath (P N : ℕ) (mass : ℕ → ℝ)
    (engine : (ℕ → ℕ → ℝ) → ℕ → ℕ → ℝ) (schedule : List (ℤ × ℕ))
    (dt temperature friction : ℝ) (applyThermostat : Bool) (rng : ℕ → ℝ)
    (forcesAreValid : Bool) (s : OpenState) : OpenState × Option String :=
  let halfdt := 0.5 * dt
  let nkT := (P : ℝ) * BOLTZ * temperature
  let nkTm1 := ((P : ℝ) - 1) * BOLTZ * temperature
  let twown := 2 * nkTm1 / hbar
  let rng2 : ℕ → ℝ := fun n => rng (3 * P * massiveBefore mass N + n)
  let r1 := if !forcesAreValid then computeForcesOpenPath P N engine schedule s
            else (s, none)
  let r2 := andThen r1 (pureStep (fun s =>
    if applyThermostat then
      { s with velocities :=
          thermostatOpenVel P N mass nkT twown halfdt friction rng s.velocities }
    else s))
  let r3 := andThen r2 (pureStep (fun s =>
    { s with velocities := kickVelocities P N mass halfdt s.velocities s.forces }))
  let r4 := andThen r3 (pureStep (fun s =>
    let qv := driftOpenState P N mass twown dt s.positions s.velocities
    { s with positions := qv.1, velocities := qv.2 }))
  let r5 := andThen r4 (computeForcesOpenPath P N engine schedule)
  let r6 := andThen r5 (pureStep (fun s =>
    { s with velocities := kickVelocities P N mass halfdt s.velocities s.forces }))
  andThen r6 (pureStep (fun s =>
    if applyThermostat then
      { s with velocities :=
          thermostatOpenVel P N mass nkT twown halfdt friction rng2 s.velocities }
    else s))

/-! ## Theorems -/

/-- Localization for a fold of per-index updates: when every iteration `k`
reads only index `k` of both arrays and writes only index `k`, the fold over
`[a, a+n)` acts pointwise. -/
theorem foldl_update_pair_eval (f1 f2 : ℕ → ℂ → ℂ → ℂ)
    (step : (ℕ → ℂ) × (ℕ → ℂ) → ℕ → (ℕ → ℂ) × (ℕ → ℂ))
    (hstep : ∀ s k, step s k =
      (Function.update s.1 k (f1 k (s.1 k) (s.2 k)),
       Function.update s.2 k (f2 k (s.1 k) (s.2 k)))) :
    ∀ (n a : ℕ) (q v : ℕ → ℂ) (i : ℕ),
      (((List.range' a n).foldl step (q, v)).1 i
        = if a ≤ i ∧ i < a + n then f1 i (q i) (v i) else q i)
      ∧ (((List.range' a n).foldl step (q, v)).2 i
        = if a ≤ i ∧ i < a + n then f2 i (q i) (v i) else v i) := by
  intro n
  induction n with
  | zero =>
      intro a q v i
      simp only [List.range', List.foldl_nil]
      rw [if_neg (by omega), if_neg (by omega)]
      exact ⟨rfl, rfl⟩
  | succ m ih =>
      intro a q v i
      have hrange : List.range' a (m + 1) = a :: List.range' (a + 1) m := rfl
      rw [hrange]
      simp only [List.foldl_cons, hstep]
      have h := ih (a + 1)
        (Function.update q a (f1 a (q a) (v a)))
        (Function.update v a (f2 a (q a) (v a))) i
      rcases h with ⟨h1, h2⟩
      constructor
      · by_cases hia : i = a
        · subst hia
          rw [h1, if_neg (by omega), Function.update_same, if_pos (by omega)]
        · simp only [Function.update_noteq hia] at h1
          rw [h1]
          by_cases hin : a + 1 ≤ i ∧ i < a + 1 + m
          · rw [if_pos hin, if_pos (by omega)]
          · rw [if_neg hin, if_neg (by omega)]
      · by_cases hia : i = a
        · subst hia
          rw [h2, if_neg (by omega), Function.update_same, if_pos (by omega)]
        · simp only [Function.update_noteq hia] at h2
          rw [h2]
          by_cases hin : a + 1 ≤ i ∧ i < a + 1 + m
          · rw [if_pos hin, if_pos (by omega)]
          · rw [if_neg hin, if_neg (by omega)]

/-- **C1.** Closed-path free-polymer drift: every non-centroid mode
`k ∈ [1, P)` is rotated exactly as `v'ₖ = vₖ·c − qₖ·ωₖ·s`,
`q'ₖ = vₖ·s/ωₖ + qₖ·c` with `ωₖ = ωₙ·sin(kπ/P)`, `c = cos(ωₖΔt)`,
`s = sin(ωₖΔt)`; the position is advanced from the *old* velocity (the new
velocity is computed into a temporary and committed afterwards), and the
centroid mode is advanced as `q₀ ← q₀ + v₀·Δt` with `v₀` unchanged. -/
theorem drift_closed_modes (P : ℕ) (twown dt : ℝ) (q v : ℕ → ℂ) (k : ℕ)
    (hk1 : 1 ≤ k) (hk2 : k < P) :
    (driftClosed P twown dt q v).2 k
        = v k * ((Real.cos (twown * Real.sin (k * Real.pi / P) * dt) : ℝ) : ℂ)
          - q k * ((twown * Real.sin (k * Real.pi / P)
              * Real.sin (twown * Real.sin (k * Real.pi / P) * dt) : ℝ) : ℂ)
    ∧ (driftClosed P twown dt q v).1 k
        = v k * ((Real.sin (twown * Real.sin (k * Real.pi / P) * dt)
              / (twown * Real.sin (k * Real.pi / P)) : ℝ) : ℂ)
          + q k * ((Real.cos (twown * Real.sin (k * Real.pi / P) * dt) : ℝ) : ℂ)
    ∧ (driftClosed P twown dt q v).1 0 = q 0 + v 0 * (dt : ℂ)
    ∧ (driftClosed P twown dt q v).2 0 = v 0 := by
  have hloc := foldl_update_pair_eval
    (fun k qk vk => vk * ((Real.sin (twown * Real.sin (k * Real.pi / P) * dt)
        / (twown * Real.sin (k * Real.pi / P)) : ℝ) : ℂ)
      + qk * ((Real.cos (twown * Real.sin (k * Real.pi / P) * dt) : ℝ) : ℂ))
    (fun k qk vk => vk * ((Real.cos (twown * Real.sin (k * Real.pi / P) * dt) : ℝ) : ℂ)
      - qk * ((twown * Real.sin (k * Real.pi / P)
          * Real.sin (twown * Real.sin (k * Real.pi / P) * dt) : ℝ) : ℂ))
    (driftModeStep P twown dt) (fun s k => rfl) (P - 1) 1
    (Function.update q 0 (q 0 + v 0 * (dt : ℂ))) v
  refine ⟨?_, ?_, ?_, ?_⟩
  · rw [driftClosed, (hloc k).2, if_pos (by omega),
        Function.update_noteq (by omega : k ≠ 0)]
  · rw [driftClosed, (hloc k).1, if_pos (by omega),
        Function.update_noteq (by omega : k ≠ 0)]
  · rw [driftClosed, (hloc 0).1, if_neg (by omega), Function.update_same]
  · rw [driftClosed, (hloc 0).2, if_neg (by omega)]

/-- Witness for `drift_closed_modes` at `P = 2`, `k = 1`: the hypotheses
`1 ≤ 1` and `1 < 2` hold, and the centroid conclusions are obtained by
applying the theorem there. -/
theorem drift_closed_modes_witness :
    (1 ≤ 1 ∧ 1 < 2)
    ∧ (driftClosed 2 1 1 (fun _ => 1) (fun _ => 1)).1 0
        = (fun _ => (1 : ℂ)) 0 + (fun _ => (1 : ℂ)) 0 * ((1 : ℝ) : ℂ)
    ∧ (driftClosed 2 1 1 (fun _ => 1) (fun _ => 1)).2 0 = (fun _ => (1 : ℂ)) 0 :=
  ⟨⟨le_refl 1, by omega⟩,
    (drift_closed_modes 2 1 1 (fun _ => 1) (fun _ => 1) 1 (by omega) (by omega)).2.2⟩

theorem star_mk (a b : ℝ) : (starRingEnd ℂ) ⟨a, b⟩ = (⟨a, -b⟩ : ℂ) := by
  apply Complex.ext <;> simp

theorem pileModeStep_fst_self (P : ℕ) (twown halfdt nkT mass : ℝ) (rng : ℕ → ℝ)
    (s : (ℕ → ℂ) × ℕ) (k : ℕ) :
    (pileModeStep P twown halfdt nkT mass rng s k).1 k
      = s.1 k * (pileC1 P twown halfdt k : ℂ)
        + pileFresh P twown halfdt nkT mass rng k s.2 := by
  simp only [pileModeStep, pileFresh]
  by_cases h : k < P - k
  · rw [if_pos h, Function.update_noteq (by omega : k ≠ P - k), Function.update_same]
  · rw [if_neg h, Function.update_same]

theorem pileModeStep_fst_mirror (P : ℕ) (twown halfdt nkT mass : ℝ) (rng : ℕ → ℝ)
    (s : (ℕ → ℂ) × ℕ) (k : ℕ) (h : k < P - k) :
    (pileModeStep P twown halfdt nkT mass rng s k).1 (P - k)
      = s.1 (P - k) * (pileC1 P twown halfdt k : ℂ)
        + (starRingEnd ℂ) (pileFresh P twown halfdt nkT mass rng k s.2) := by
  simp only [pileModeStep, pileFresh]
  rw [if_pos h, Function.update_same, Function.update_noteq (by omega : P - k ≠ k),
      star_mk]

theorem pileModeStep_fst_other (P : ℕ) (twown halfdt nkT mass : ℝ) (rng : ℕ → ℝ)
    (s : (ℕ → ℂ) × ℕ) (k i : ℕ) (h1 : i ≠ k) (h2 : ¬(k < P - k ∧ i = P - k)) :
    (pileModeStep P twown halfdt nkT mass rng s k).1 i = s.1 i := by
  simp only [pileModeStep]
  by_cases h : k < P - k
  · rw [if_pos h, Function.update_noteq (fun hip => h2 ⟨h, hip⟩),
        Function.update_noteq h1]
  · rw [if_neg h, Function.update_noteq h1]

theorem pileModeStep_snd (P : ℕ) (twown halfdt nkT mass : ℝ) (rng : ℕ → ℝ)
    (s : (ℕ → ℂ) × ℕ) (k : ℕ) :
    (pileModeStep P twown halfdt nkT mass rng s k).2
      = s.2 + if isNyquist P k then 1 else 2 := rfl

/-- Localization of the internal-mode loop over `[a, a+n)`: mode `i` in the
range receives the direct update with stream cursor `i0 + 2(i−a)`, its
mirror `P−i` receives the conjugated update, and every other index is
untouched. -/
theorem pileLoop_eval (P : ℕ) (twown halfdt nkT mass : ℝ) (rng : ℕ → ℝ) :
    ∀ (n a : ℕ), 1 ≤ a → a + n ≤ P / 2 + 1 →
    ∀ (v : ℕ → ℂ) (i0 i : ℕ),
      ((List.range' a n).foldl (pileModeStep P twown halfdt nkT mass rng) (v, i0)).1 i
        = if a ≤ i ∧ i < a + n then
            v i * (pileC1 P twown halfdt i : ℂ)
              + pileFresh P twown halfdt nkT mass rng i (i0 + 2 * (i - a))
          else if a ≤ P - i ∧ P - i < a + n ∧ P - i < i ∧ i < P then
            v i * (pileC1 P twown halfdt (P - i) : ℂ)
              + (starRingEnd ℂ)
                  (pileFresh P twown halfdt nkT mass rng (P - i) (i0 + 2 * (P - i - a)))
          else v i := by
  intro n
  induction n with
  | zero =>
      intro a _ _ v i0 i
      simp only [List.range', List.foldl_nil]
      rw [if_neg (by omega), if_neg (by omega)]
  | succ m ih =>
      intro a ha hrange v i0 i
      have hcons : List.range' a (m + 1) = a :: List.range' (a + 1) m := rfl
      rw [hcons, List.foldl_cons]
      have haP : a ≤ P / 2 := by omega
      -- the state after the first iteration
      set s1 := pileModeStep P twown halfdt nkT mass rng (v, i0) a with hs1
      have hs1snd : s1.2 = i0 + if isNyquist P a then 1 else 2 :=
        pileModeStep_snd P twown halfdt nkT mass rng (v, i0) a
      have hmain := ih (a + 1) (by omega) (by omega) s1.1 s1.2 i
      rw [show (s1.1, s1.2) = s1 from rfl] at hmain
      rw [hmain]
      by_cases hia : i = a
      · -- the index updated directly by the first iteration
        subst hia
        have hself : s1.1 i
            = v i * (pileC1 P twown halfdt i : ℂ)
              + pileFresh P twown halfdt nkT mass rng i i0 :=
          pileModeStep_fst_self P twown halfdt nkT mass rng (v, i0) i
        rw [if_neg (by omega), if_neg (by omega), hself, if_pos (by omega)]
        simp only [Nat.sub_self, Nat.mul_zero, Nat.add_zero]
      · by_cases him : a < P - a ∧ i = P - a
        · -- the mirror index updated by the first iteration
          rcases him with ⟨hlt, hieq⟩
          subst hieq
          have hmirr : s1.1 (P - a)
              = v (P - a) * (pileC1 P twown halfdt a : ℂ)
                + (starRingEnd ℂ) (pileFresh P twown halfdt nkT mass rng a i0) :=
            pileModeStep_fst_mirror P twown halfdt nkT mass rng (v, i0) a hlt
          rw [if_neg (by omega), if_neg (by omega), hmirr, if_neg (by omega),
              if_pos (by omega)]
          have hPsub : P - (P - a) = a := by omega
          rw [hPsub]
          simp only [Nat.sub_self, Nat.mul_zero, Nat.add_zero]
        · -- untouched by the first iteration
          have hother : s1.1 i = v i :=
            pileModeStep_fst_other P twown halfdt nkT mass rng (v, i0) a i hia
              (fun hc => him hc)
          by_cases hdir : a + 1 ≤ i ∧ i < a + 1 + m
          · -- direct update by a later iteration
            have hnyq : ¬ isNyquist P a := by
              intro hny
              rcases hny with ⟨-, hny2⟩
              omega
            rw [if_pos hdir, hother, hs1snd, if_neg hnyq, if_pos (by omega)]
            have harith : i0 + 2 + 2 * (i - (a + 1)) = i0 + 2 * (i - a) := by omega
            rw [harith]
          · rw [if_neg hdir]
            by_cases hmir : a + 1 ≤ P - i ∧ P - i < a + 1 + m ∧ P - i < i ∧ i < P
            · -- mirror update by a later iteration
              have hnyq : ¬ isNyquist P a := by
                intro hny
                rcases hny with ⟨-, hny2⟩
                omega
              rw [if_pos hmir, hother, hs1snd, if_neg hnyq, if_neg (by omega),
                  if_pos (by omega)]
              have harith : i0 + 2 + 2 * (P - i - (a + 1)) = i0 + 2 * (P - i - a) := by
                omega
              rw [harith]
            · -- untouched entirely
              have hcneg : ¬(a ≤ P - i ∧ P - i < a + (m + 1) ∧ P - i < i ∧ i < P) := by
                intro hc
                rcases hc with ⟨hc1, hc2, hc3, hc4⟩
                apply hmir
                refine ⟨?_, by omega, hc3, hc4⟩
                -- otherwise P - i = a, i.e. i = P - a, excluded above
                rcases Nat.lt_or_ge (P - i) (a + 1) with hlt | hge
                · exfalso
                  exact him ⟨by omega, by omega⟩
                · exact hge
              rw [if_neg hmir, hother, if_neg (by omega), if_neg hcneg]

/-- If a mode vector is Hermitian (`w (P−j) = conj (w j)` for `1 ≤ j < P`,
and `w 0` real), its unnormalized inverse DFT is real. -/
theorem dftInv_im_eq_zero (P : ℕ) (w : ℕ → ℂ) (h0 : (w 0).im = 0)
    (hh : ∀ j, 1 ≤ j → j < P → w (P - j) = (starRingEnd ℂ) (w j)) (t : ℕ) :
    (dftInv P w t).im = 0 := by
  rcases Nat.eq_zero_or_pos P with hP | hP
  · subst hP
    simp [dftInv]
  · have hPC : (P : ℂ) ≠ 0 := Nat.cast_ne_zero.mpr (by omega)
    have key : (starRingEnd ℂ) (dftInv P w t) = dftInv P w t := by
      simp only [dftInv]
      rw [map_sum, Finset.range_eq_Ico, Finset.sum_eq_sum_Ico_succ_bot hP,
          Finset.sum_eq_sum_Ico_succ_bot hP]
      congr 1
      · -- the centroid term: `w 0` is real
        simp only [Nat.cast_zero, mul_zero, zero_mul, zero_div, Complex.exp_zero,
          mul_one]
        apply Complex.ext <;> simp [h0]
      · -- the internal terms pair up under `j ↦ P − j`
        refine Finset.sum_nbij' (fun j => P - j) (fun j => P - j) ?_ ?_ ?_ ?_ ?_
        · intro a ha
          simp only [Finset.mem_Ico] at ha ⊢
          omega
        · intro a ha
          simp only [Finset.mem_Ico] at ha ⊢
          omega
        · intro a ha
          simp only [Finset.mem_Ico] at ha
          show P - (P - a) = a
          omega
        · intro a ha
          simp only [Finset.mem_Ico] at ha
          show P - (P - a) = a
          omega
        · intro a ha
          simp only [Finset.mem_Ico] at ha
          rw [map_mul, ← hh a ha.1 ha.2]
          congr 1
          rw [← Complex.exp_conj]
          have hconjexp : (starRingEnd ℂ) (2 * (Real.pi : ℂ) * Complex.I * a * t / P)
              = -(2 * (Real.pi : ℂ) * Complex.I * a * t / P) := by
            simp only [map_div₀, map_mul, Complex.conj_I, Complex.conj_ofReal,
              Complex.conj_natCast, map_ofNat]
            ring
          rw [hconjexp]
          have hcast : ((P - a : ℕ) : ℂ) = (P : ℂ) - (a : ℂ) :=
            Nat.cast_sub ha.2.le
          rw [hcast]
          have hsplit : 2 * (Real.pi : ℂ) * Complex.I * ((P : ℂ) - (a : ℂ)) * t / P
              = (t : ℂ) * (2 * (Real.pi : ℂ) * Complex.I)
                + -(2 * (Real.pi : ℂ) * Complex.I * a * t / P) := by
            field_simp
            ring
          rw [hsplit, Complex.exp_add, Complex.exp_nat_mul_two_pi_mul_I, one_mul]
    have him := congrArg Complex.im key
    rw [Complex.conj_im] at him
    linarith

/-- **C2.** Closed-path PILE thermostat, internal modes `k = 1 .. ⌊P/2⌋`:
the mode is damped by `c1 = exp(−2ωₖ·Δt/2)` and receives noise with
amplitude `c3 = c2·√(nkT/m)` where `c2 = √((1−c1²)/2)` carries an extra
`√2` exactly at the Nyquist bin (`P` even and `k = P/2`); the imaginary
draw is zero at the Nyquist bin; whenever `k < P−k` the mirror mode `P−k`
is damped by the same `c1` and receives the conjugate noise; consequently
the internal-mode loop preserves Hermitian symmetry and the inverse FFT of
the resulting mode vector is real. -/
theorem pile_thermostat_closed (P k : ℕ) (twown halfdt nkT mass : ℝ)
    (rng : ℕ → ℝ) (v : ℕ → ℂ) (i0 : ℕ) (hk1 : 1 ≤ k) (hk2 : k ≤ P / 2) :
    (pileLoop P twown halfdt nkT mass rng v i0).1 k
        = v k * (pileC1 P twown halfdt k : ℂ)
          + pileFresh P twown halfdt nkT mass rng k (i0 + 2 * (k - 1))
    ∧ pileC1 P twown halfdt k
        = Real.exp (-(2 * (twown * Real.sin (k * Real.pi / P)) * halfdt))
    ∧ pileC3 P twown halfdt nkT mass k
        = Real.sqrt ((1 - pileC1 P twown halfdt k * pileC1 P twown halfdt k) / 2)
          * (if isNyquist P k then Real.sqrt 2 else 1) * Real.sqrt (nkT / mass)
    ∧ pileFresh P twown halfdt nkT mass rng k (i0 + 2 * (k - 1))
        = ⟨pileC3 P twown halfdt nkT mass k * rng (i0 + 2 * (k - 1)),
           if isNyquist P k then 0
           else pileC3 P twown halfdt nkT mass k * rng (i0 + 2 * (k - 1) + 1)⟩
    ∧ (k < P - k →
        (pileLoop P twown halfdt nkT mass rng v i0).1 (P - k)
          = v (P - k) * (pileC1 P twown halfdt k : ℂ)
            + (starRingEnd ℂ)
                (pileFresh P twown halfdt nkT mass rng k (i0 + 2 * (k - 1))))
    ∧ ((∀ j, 1 ≤ j → j < P → v (P - j) = (starRingEnd ℂ) (v j)) →
        ∀ j, 1 ≤ j → j < P →
          (pileLoop P twown halfdt nkT mass rng v i0).1 (P - j)
            = (starRingEnd ℂ) ((pileLoop P twown halfdt nkT mass rng v i0).1 j))
    ∧ ((∀ j, 1 ≤ j → j < P → v (P - j) = (starRingEnd ℂ) (v j)) → (v 0).im = 0 →
        ∀ t, (dftInv P ((pileLoop P twown halfdt nkT mass rng v i0).1) t).im = 0) := by
  have hW : ∀ i, (pileLoop P twown halfdt nkT mass rng v i0).1 i
      = if 1 ≤ i ∧ i < 1 + P / 2 then
          v i * (pileC1 P twown halfdt i : ℂ)
            + pileFresh P twown halfdt nkT mass rng i (i0 + 2 * (i - 1))
        else if 1 ≤ P - i ∧ P - i < 1 + P / 2 ∧ P - i < i ∧ i < P then
          v i * (pileC1 P twown halfdt (P - i) : ℂ)
            + (starRingEnd ℂ)
                (pileFresh P twown halfdt nkT mass rng (P - i) (i0 + 2 * (P - i - 1)))
        else v i :=
    fun i => pileLoop_eval P twown halfdt nkT mass rng (P / 2) 1 le_rfl (by omega) v i0 i
  have hdirect : ∀ j, 1 ≤ j → j ≤ P / 2 →
      (pileLoop P twown halfdt nkT mass rng v i0).1 j
        = v j * (pileC1 P twown halfdt j : ℂ)
          + pileFresh P twown halfdt nkT mass rng j (i0 + 2 * (j - 1)) := by
    intro j hj1 hj2
    rw [hW j, if_pos (by omega)]
  have hmirror : ∀ j, 1 ≤ j → j ≤ P / 2 → j < P - j →
      (pileLoop P twown halfdt nkT mass rng v i0).1 (P - j)
        = v (P - j) * (pileC1 P twown halfdt j : ℂ)
          + (starRingEnd ℂ)
              (pileFresh P twown halfdt nkT mass rng j (i0 + 2 * (j - 1))) := by
    intro j hj1 hj2 hlt
    rw [hW (P - j), if_neg (by omega), if_pos (by omega),
        show P - (P - j) = j from by omega]
  have huntouched0 : (pileLoop P twown halfdt nkT mass rng v i0).1 0 = v 0 := by
    rw [hW 0, if_neg (by omega), if_neg (by omega)]
  have hpres : (∀ j, 1 ≤ j → j < P → v (P - j) = (starRingEnd ℂ) (v j)) →
      ∀ j, 1 ≤ j → j < P →
        (pileLoop P twown halfdt nkT mass rng v i0).1 (P - j)
          = (starRingEnd ℂ) ((pileLoop P twown halfdt nkT mass rng v i0).1 j) := by
    intro hherm j hj1 hj2
    rcases Nat.lt_trichotomy j (P - j) with hlt | heq | hgt
    · -- j is the low member of a conjugate pair
      have hj2' : j ≤ P / 2 := by omega
      rw [hdirect j hj1 hj2', hmirror j hj1 hj2' hlt, hherm j hj1 hj2,
          map_add, map_mul, Complex.conj_ofReal]
    · -- the Nyquist bin: its own mirror, noise is real
      have hj2' : j ≤ P / 2 := by omega
      have hvj : v j = (starRingEnd ℂ) (v j) := by
        have h := hherm j hj1 hj2
        rw [← heq] at h
        exact h
      have hny : isNyquist P j := ⟨by omega, by omega⟩
      rw [← heq, hdirect j hj1 hj2', map_add, map_mul, Complex.conj_ofReal]
      congr 1
      · rw [← hvj]
      · simp only [pileFresh, if_pos hny, star_mk, neg_zero]
    · -- j is the high member: use the mirror formula at P − j
      have hk1' : 1 ≤ P - j := by omega
      have hk2' : P - j ≤ P / 2 := by omega
      have hlt' : P - j < P - (P - j) := by omega
      have hm := hmirror (P - j) hk1' hk2' hlt'
      rw [show P - (P - j) = j from by omega] at hm
      rw [hdirect (P - j) hk1' hk2', hm, map_add, map_mul, Complex.conj_ofReal,
          Complex.conj_conj, hherm j hj1 hj2]
  refine ⟨hdirect k hk1 hk2, rfl, rfl, rfl, fun hkm => hmirror k hk1 hk2 hkm, hpres,
    ?_⟩
  intro hherm h0 t
  exact dftInv_im_eq_zero P _ (huntouched0 ▸ h0) (hpres hherm) t

/-- Witness for `pile_thermostat_closed` at `P = 4`, `k = 1`, constant real
input modes: the Hermitian-preservation conclusion is obtained by applying
the theorem. -/
theorem pile_thermostat_closed_witness :
    (pileLoop 4 1 1 1 1 (fun _ => 0) (fun _ => 1) 0).1 (4 - 1)
      = (starRingEnd ℂ) ((pileLoop 4 1 1 1 1 (fun _ => 0) (fun _ => 1) 0).1 1) :=
  (pile_thermostat_closed 4 1 1 1 1 1 (fun _ => 0) (fun _ => 1) 0 (by omega)
    (by omega)).2.2.2.2.2.1 (fun j _ _ => by simp) 1 (by omega) (by omega)

/-- Evaluation of a read-high/write-low shifting fold: destinations are
strictly below every remaining read, so each entry is copied from the
original buffer. -/
theorem packFold_eval :
    ∀ (n e d : ℕ) (q : ℕ → ℂ) (i : ℕ), 1 ≤ d → d ≤ e →
      ((List.range' e n).foldl (fun q k => Function.update q (k - d) (q k)) q) i
        = if e - d ≤ i ∧ i < e - d + n then q (i + d) else q i := by
  intro n
  induction n with
  | zero =>
      intro e d q i _ _
      simp only [List.range', List.foldl_nil]
      rw [if_neg (by omega)]
  | succ m ih =>
      intro e d q i hd hde
      have hcons : List.range' e (m + 1) = e :: List.range' (e + 1) m := rfl
      rw [hcons, List.foldl_cons]
      have h := ih (e + 1) d (Function.update q (e - d) (q e)) i hd (by omega)
      rw [h]
      by_cases hie : i = e - d
      · subst hie
        rw [if_neg (by omega), Function.update_same, if_pos (by omega)]
        congr 1
        omega
      · by_cases hin : e + 1 - d ≤ i ∧ i < e + 1 - d + m
        · rw [if_pos hin, Function.update_noteq (by omega), if_pos (by omega)]
        · rw [if_neg hin, Function.update_noteq hie, if_neg (by omega)]

/-- Evaluation of the write-high/read-low shifting fold, in the
non-overlapping regime `n ≤ d` (every read index stays below the written
range): each written entry is copied from the original buffer. -/
theorem unpackFold_eval :
    ∀ (n e d : ℕ) (q : ℕ → ℂ) (i : ℕ), n ≤ d → 1 ≤ e →
      ((List.range' e n).foldl (fun q k => Function.update q k (q (k - d))) q) i
        = if e ≤ i ∧ i < e + n then q (i - d) else q i := by
  intro n
  induction n with
  | zero =>
      intro e d q i _ _
      simp only [List.range', List.foldl_nil]
      rw [if_neg (by omega)]
  | succ m ih =>
      intro e d q i hnd he
      have hcons : List.range' e (m + 1) = e :: List.range' (e + 1) m := rfl
      rw [hcons, List.foldl_cons]
      have h := ih (e + 1) d (Function.update q e (q (e - d))) i (by omega) (by omega)
      rw [h]
      by_cases hie : i = e
      · subst hie
        rw [if_neg (by omega), Function.update_same, if_pos (by omega)]
      · by_cases hin : e + 1 ≤ i ∧ i < e + 1 + m
        · rw [if_pos hin, Function.update_noteq (by omega), if_pos (by omega)]
        · rw [if_neg hin, Function.update_noteq hie, if_neg (by omega)]

/-- Evaluation of the zero-filling fold. -/
theorem zeroFold_eval :
    ∀ (n a : ℕ) (q : ℕ → ℂ) (i : ℕ),
      ((List.range' a n).foldl (fun q k => Function.update q k 0) q) i
        = if a ≤ i ∧ i < a + n then 0 else q i := by
  intro n
  induction n with
  | zero =>
      intro a q i
      simp only [List.range', List.foldl_nil]
      rw [if_neg (by omega)]
  | succ m ih =>
      intro a q i
      have hcons : List.range' a (m + 1) = a :: List.range' (a + 1) m := rfl
      rw [hcons, List.foldl_cons, ih (a + 1) (Function.update q a 0) i]
      by_cases hia : i = a
      · subst hia
        rw [if_neg (by omega), Function.update_same, if_pos (by omega)]
      · by_cases hin : a + 1 ≤ i ∧ i < a + 1 + m
        · rw [if_pos hin, if_pos (by omega)]
        · rw [if_neg hin, Function.update_noteq hia, if_neg (by omega)]

/-- A fold of single-index writes leaves indices outside the list alone. -/
theorem foldl_update_not_mem (f : (ℕ → ℂ) → ℕ → ℂ) :
    ∀ (l : List ℕ) (q : ℕ → ℂ) (j : ℕ), j ∉ l →
      (l.foldl (fun q k => Function.update q k (f q k)) q) j = q j := by
  intro l
  induction l with
  | nil => intro q j _; rfl
  | cons k t ih =>
      intro q j hj
      rw [List.foldl_cons, ih _ j (fun h => hj (List.mem_cons_of_mem k h)),
          Function.update_noteq (fun h : j = k => hj (h ▸ List.mem_cons_self k t))]

theorem dftFwd_one (f : ℕ → ℂ) (k : ℕ) : dftFwd 1 f k = f 0 := by
  simp [dftFwd, Finset.sum_range_one]

theorem dftInv_one (f : ℕ → ℂ) (k : ℕ) : dftInv 1 f k = f 0 := by
  simp [dftInv, Finset.sum_range_one]

/-- The forward DFT of a constant sequence is concentrated in bin 0. -/
theorem dftFwd_const (P : ℕ) (z : ℂ) (j : ℕ) (hj : j < P) :
    dftFwd P (fun _ => z) j = if j = 0 then (P : ℂ) * z else 0 := by
  simp only [dftFwd]
  by_cases hj0 : j = 0
  · subst hj0
    rw [if_pos rfl]
    have hterm : ∀ t ∈ Finset.range P,
        z * Complex.exp (-(2 * (Real.pi : ℂ) * Complex.I) * t * (0 : ℕ) / P) = z := by
      intro t _
      norm_num
    rw [Finset.sum_congr rfl hterm, Finset.sum_const, Finset.card_range, nsmul_eq_mul]
  · rw [if_neg hj0]
    have hP0 : (P : ℂ) ≠ 0 := Nat.cast_ne_zero.mpr (by omega)
    set ζ : ℂ := Complex.exp (-(2 * (Real.pi : ℂ) * Complex.I) * j / P) with hζ
    have hterm : ∀ t ∈ Finset.range P,
        z * Complex.exp (-(2 * (Real.pi : ℂ) * Complex.I) * t * j / P) = z * ζ ^ t := by
      intro t _
      rw [hζ, ← Complex.exp_nat_mul]
      congr 1
      ring_nf
    rw [Finset.sum_congr rfl hterm, ← Finset.mul_sum]
    have hζP : ζ ^ P = 1 := by
      rw [hζ, ← Complex.exp_nat_mul]
      have harr : (P : ℂ) * (-(2 * (Real.pi : ℂ) * Complex.I) * j / P)
          = ((-(j : ℤ) : ℤ) : ℂ) * (2 * (Real.pi : ℂ) * Complex.I) := by
        push_cast
        field_simp
        ring
      rw [harr, Complex.exp_int_mul_two_pi_mul_I]
    have hζ1 : ζ ≠ 1 := by
      rw [hζ]
      intro hone
      rw [Complex.exp_eq_one_iff] at hone
      rcases hone with ⟨n, hn⟩
      have harr2 : (-(j : ℂ) / P) * (2 * (Real.pi : ℂ) * Complex.I)
          = (n : ℂ) * (2 * (Real.pi : ℂ) * Complex.I) := by
        rw [← hn]; ring
      have hcanc : -(j : ℂ) / P = (n : ℂ) :=
        mul_right_cancel₀ Complex.two_pi_I_ne_zero harr2
      rw [div_eq_iff hP0] at hcanc
      have h4 : -(j : ℤ) = n * (P : ℤ) := by exact_mod_cast hcanc
      have hj1 : 1 ≤ j := by omega
      rcases le_or_lt 0 n with hn0 | hn0
      · have : (0 : ℤ) ≤ n * (P : ℤ) :=
          mul_nonneg hn0 (by exact_mod_cast Nat.zero_le P)
        omega
      · have hn1 : n ≤ -1 := by omega
        have : n * (P : ℤ) ≤ -1 * (P : ℤ) :=
          mul_le_mul_of_nonneg_right hn1 (by exact_mod_cast Nat.zero_le P)
        omega
    rw [geom_sum_eq hζ1, hζP]
    simp

/-- The unnormalized inverse DFT of a spectrum concentrated in bin 0 is the
constant `w 0`. -/
theorem dftInv_delta (P : ℕ) (w : ℕ → ℂ) (hP : 1 ≤ P)
    (hw : ∀ j, 1 ≤ j → j < P → w j = 0) (k : ℕ) :
    dftInv P w k = w 0 := by
  simp only [dftInv]
  rw [Finset.range_eq_Ico, Finset.sum_eq_sum_Ico_succ_bot (by omega : 0 < P)]
  have htail : ∑ j ∈ Finset.Ico 1 P,
      w j * Complex.exp (2 * (Real.pi : ℂ) * Complex.I * j * k / P) = 0 := by
    apply Finset.sum_eq_zero
    intro j hj
    rw [Finset.mem_Ico] at hj
    rw [hw j hj.1 hj.2, zero_mul]
  rw [htail, add_zero]
  norm_num

/-- Under the unpacking fold with concentrated spectrum input, every
touched entry receives zero (this holds with or without overlap between
the read range and the written range, because overwritten entries already
hold zero). -/
theorem unpackFold_zero :
    ∀ (l : List ℕ) (d Pc : ℕ) (q : ℕ → ℂ), l.Nodup →
      (∀ k ∈ l, 1 ≤ k - d ∧ k - d < Pc ∧ 1 ≤ k) →
      (∀ j, 1 ≤ j → j < Pc → q j = 0) →
      (∀ j, 1 ≤ j → j < Pc →
          (l.foldl (fun q k => Function.update q k (q (k - d))) q) j = 0)
        ∧ (∀ k ∈ l, (l.foldl (fun q k => Function.update q k (q (k - d))) q) k = 0)
        ∧ (l.foldl (fun q k => Function.update q k (q (k - d))) q) 0 = q 0 := by
  intro l
  induction l with
  | nil =>
      intro d Pc q _ _ hq
      exact ⟨fun j hj1 hj2 => hq j hj1 hj2,
        fun k hk => absurd hk (List.not_mem_nil k), rfl⟩
  | cons k t ih =>
      intro d Pc q hnd hl hq
      simp only [List.foldl_cons]
      obtain ⟨hk1, hk2, hk3⟩ := hl k (List.mem_cons_self k t)
      have hq' : ∀ j, 1 ≤ j → j < Pc → (Function.update q k (q (k - d))) j = 0 := by
        intro j hj1 hj2
        by_cases hjk : j = k
        · subst hjk
          rw [Function.update_same]
          exact hq _ hk1 hk2
        · rw [Function.update_noteq hjk]
          exact hq _ hj1 hj2
      have hres := ih d Pc (Function.update q k (q (k - d)))
        (List.nodup_cons.mp hnd).2
        (fun k' hk' => hl k' (List.mem_cons_of_mem k hk'))
        hq'
      refine ⟨hres.1, ?_, ?_⟩
      · intro k' hk'
        rcases List.mem_cons.mp hk' with hkk | hkt
        · subst hkk
          rw [foldl_update_not_mem (fun q k => q (k - d)) t _ k'
              (List.nodup_cons.mp hnd).1, Function.update_same]
          exact hq _ hk1 hk2
        · exact hres.2.1 k' hkt
      · rw [hres.2.2, Function.update_noteq (by omega)]

/-- The packed length-`Pc` buffer holds exactly the bins selected by
`binMap`. -/
theorem packShift_eval (P Pc : ℕ) (h1 : 1 ≤ Pc) (h2 : Pc < P) (q : ℕ → ℂ)
    (j : ℕ) (hj : j < Pc) :
    packShift P Pc q j = q (binMap P Pc j) := by
  simp only [packShift]
  rw [packFold_eval (P - (P - Pc + (Pc + 1) / 2)) (P - Pc + (Pc + 1) / 2) (P - Pc)
      q j (by omega) (by omega)]
  simp only [binMap]
  by_cases hjs : j < (Pc + 1) / 2
  · rw [if_neg (by omega), if_pos hjs]
  · rw [if_pos (by omega), if_neg hjs]

theorem binMap_ne_zero (P Pc j : ℕ) (hj : 1 ≤ j) : binMap P Pc j ≠ 0 := by
  simp only [binMap]
  split <;> omega

theorem binMap_lt (P Pc j : ℕ) (hPc : Pc ≤ P) (hj : j < Pc) : binMap P Pc j < P := by
  simp only [binMap]
  split <;> omega

/-- The kept-bin set computed by the code, in interval form (the claim's
`⌈(P'+1)/2⌉` boundary corrected to `⌊(P'+1)/2⌋`). -/
theorem keptBins_eq (P Pc : ℕ) (h1 : 1 ≤ Pc) (h2 : Pc ≤ P) :
    keptBins P Pc
      = Finset.range ((Pc + 1) / 2) ∪ Finset.Ico (P - Pc + (Pc + 1) / 2) P := by
  ext b
  simp only [keptBins, binMap, Finset.mem_image, Finset.mem_range, Finset.mem_union,
    Finset.mem_Ico]
  constructor
  · rintro ⟨j, hj, hb⟩
    by_cases hjs : j < (Pc + 1) / 2
    · rw [if_pos hjs] at hb
      left
      omega
    · rw [if_neg hjs] at hb
      right
      omega
  · intro hb
    rcases hb with hb | hb
    · exact ⟨b, by omega, by rw [if_pos (by omega)]⟩
    · refine ⟨b - (P - Pc), by omega, ?_⟩
      rw [if_neg (by omega)]
      omega

/-- **C3, counterexample.**  The claim's kept-bin boundary `⌈(P'+1)/2⌉`
(real ceiling) disagrees with the code's `(P'+1)/2` (integer floor) at
`P = 4, P' = 2`; and when the written range overlaps the read range
(`P = 5, P' = 4`), the forces-direction in-place copy does *not* place bin
`P'−1` back at its original position: entry 4 receives old bin 2 instead
of old bin 3. -/
theorem contraction_claim_counterexample :
    keptBins 4 2 ≠ claimKeptBins 4 2
    ∧ unpackShift 5 4 (fun j => (j : ℂ)) 4 ≠ ((3 : ℕ) : ℂ) := by
  constructor
  · decide
  · have heval : unpackShift 5 4 (fun j => (j : ℂ)) 4 = ((2 : ℕ) : ℂ) := by
      simp only [unpackShift]
      norm_num
      simp [List.range', Function.update]
    rw [heval]
    intro h
    have : (2 : ℕ) = 3 := Nat.cast_injective h
    omega

/-- **C3 (amended).**  For `1 ≤ P' < P`, the positions direction keeps
exactly the spectrum bins `[0, ⌊(P'+1)/2⌋) ∪ [P−P'+⌊(P'+1)/2⌋, P)`, packs
them contiguously, inverse-transforms at length `P'` and scales the real
part by `1/P`; and — provided the high-end placement does not overlap the
packed data, i.e. `P'−⌊(P'+1)/2⌋ ≤ P−P'` — the forces direction
forward-transforms at length `P'`, places those bins at the low and high
ends of a length-`P` spectrum with zeroed middle, inverse-transforms at
length `P`, scales by `1/P'`, and *adds* the result to the forces array. -/
theorem contraction_spectrum (P Pc : ℕ) (h1 : 1 ≤ Pc) (h2 : Pc < P)
    (hno : Pc - (Pc + 1) / 2 ≤ P - Pc) (x g F : ℕ → ℝ) :
    keptBins P Pc = Finset.range ((Pc + 1) / 2) ∪ Finset.Ico (P - Pc + (Pc + 1) / 2) P
    ∧ (∀ k, k < Pc → contractPos P Pc x k
        = (1 / (P : ℝ))
          * (dftInv Pc (fun j =>
              dftFwd P (fun t => ((x t : ℝ) : ℂ)) (binMap P Pc j)) k).re)
    ∧ (∀ k, extendForces P Pc g F k
        = F k + (1 / (Pc : ℝ))
          * (dftInv P (fun j =>
              if j < (Pc + 1) / 2 then dftFwd Pc (fun t => ((g t : ℝ) : ℂ)) j
              else if j < P - Pc + (Pc + 1) / 2 then 0
              else dftFwd Pc (fun t => ((g t : ℝ) : ℂ)) (j - (P - Pc))) k).re) := by
  refine ⟨keptBins_eq P Pc h1 h2.le, ?_, ?_⟩
  · -- positions direction
    intro k hk
    by_cases hPc : 1 < Pc
    · simp only [contractPos, if_pos hPc]
      have hsum : dftInv Pc (packShift P Pc (dftFwd P (fun t => ((x t : ℝ) : ℂ)))) k
          = dftInv Pc (fun j =>
              dftFwd P (fun t => ((x t : ℝ) : ℂ)) (binMap P Pc j)) k := by
        simp only [dftInv]
        refine Finset.sum_congr rfl (fun j hj => ?_)
        rw [packShift_eval P Pc h1 h2 _ j (Finset.mem_range.mp hj)]
      rw [hsum]
    · have hPc1 : Pc = 1 := by omega
      subst hPc1
      have hk0 : k = 0 := by omega
      subst hk0
      simp only [contractPos, if_neg hPc]
      rw [dftInv_one]
      rw [show binMap P 1 0 = 0 from by simp [binMap]]
  · -- forces direction
    intro k
    have hstart1 : 1 ≤ (Pc + 1) / 2 := by omega
    have hq3 : ∀ j, j < P →
        zeroMid P Pc (unpackShift P Pc
          (if 1 < Pc then dftFwd Pc (fun t => ((g t : ℝ) : ℂ))
           else fun t => ((g t : ℝ) : ℂ))) j
        = (if j < (Pc + 1) / 2 then dftFwd Pc (fun t => ((g t : ℝ) : ℂ)) j
           else if j < P - Pc + (Pc + 1) / 2 then 0
           else dftFwd Pc (fun t => ((g t : ℝ) : ℂ)) (j - (P - Pc))) := by
      intro j hjP
      simp only [zeroMid, unpackShift]
      rw [zeroFold_eval (P - Pc) ((Pc + 1) / 2) _ j,
          unpackFold_eval (P - (P - Pc + (Pc + 1) / 2)) (P - Pc + (Pc + 1) / 2)
            (P - Pc) _ j (by omega) (by omega)]
      by_cases hj1 : j < (Pc + 1) / 2
      · rw [if_neg (by omega), if_neg (by omega), if_pos hj1]
        by_cases hPc : 1 < Pc
        · rw [if_pos hPc]
        · have hPc1 : Pc = 1 := by omega
          subst hPc1
          rw [if_neg hPc, dftFwd_one]
          have hj0 : j = 0 := by omega
          subst hj0
          rfl
      · by_cases hj2 : j < P - Pc + (Pc + 1) / 2
        · rw [if_pos (by omega), if_neg hj1, if_pos hj2]
        · rw [if_neg (by omega), if_pos (by omega), if_neg hj1, if_neg hj2]
          by_cases hPc : 1 < Pc
          · rw [if_pos hPc]
          · -- Pc = 1: the high region is empty, contradiction
            exfalso
            omega
    simp only [extendForces]
    congr 1
    congr 1
    congr 1
    simp only [dftInv]
    refine Finset.sum_congr rfl (fun j hj => ?_)
    rw [hq3 j (Finset.mem_range.mp hj)]

/-- Witness for `contraction_spectrum` at `P = 4`, `P' = 2`: the hypotheses
hold and the kept-bin conclusion is obtained by applying the theorem. -/
theorem contraction_spectrum_witness :
    (1 ≤ 2 ∧ 2 < 4 ∧ 2 - (2 + 1) / 2 ≤ 4 - 2)
    ∧ keptBins 4 2
        = Finset.range ((2 + 1) / 2) ∪ Finset.Ico (4 - 2 + (2 + 1) / 2) 4 :=
  ⟨by omega,
    (contraction_spectrum 4 2 (by omega) (by omega) (by omega)
      (fun _ => 0) (fun _ => 0) (fun _ => 0)).1⟩

/-- **C7, counterexample.**  Extending the constant contracted force `1`
from `P' = 1` to `P = 2` beads adds `1` to *each* bead, so the total added
over the beads is `2`, not the constant `1` stated by the claim. -/
theorem contraction_constant_counterexample :
    extendForces 2 1 (fun _ => (1 : ℝ)) (fun _ => 0) 0
      + extendForces 2 1 (fun _ => (1 : ℝ)) (fun _ => 0) 1 ≠ 1 := by
  have heval : ∀ k, extendForces 2 1 (fun _ => (1 : ℝ)) (fun _ => 0) k
      = (1 / (1 : ℕ) : ℝ) * (dftInv 2 (Function.update
          (fun _ => ((1 : ℝ) : ℂ)) 1 0) k).re := by
    intro k
    show (fun _ => (0 : ℝ)) k + (1 / ((1 : ℕ) : ℝ))
        * ((dftInv 2 (zeroMid 2 1 (unpackShift 2 1
            (if 1 < 1 then dftFwd 1 (fun t => ((1 : ℝ) : ℂ))
             else fun t => ((1 : ℝ) : ℂ))))) k).re = _
    rw [if_neg (by omega)]
    have hunpack : unpackShift 2 1 (fun t => ((1 : ℝ) : ℂ))
        = fun t => ((1 : ℝ) : ℂ) := rfl
    have hzero : zeroMid 2 1 (fun t => ((1 : ℝ) : ℂ))
        = Function.update (fun _ => ((1 : ℝ) : ℂ)) 1 0 := rfl
    rw [hunpack, hzero, zero_add]
  have hdelta : dftInv 2 (Function.update (fun _ => ((1 : ℝ) : ℂ)) 1 0) 0
      = ((1 : ℝ) : ℂ) ∧ dftInv 2 (Function.update (fun _ => ((1 : ℝ) : ℂ)) 1 0) 1
      = ((1 : ℝ) : ℂ) := by
    constructor <;>
    · rw [dftInv_delta 2 _ (by omega) (fun j hj1 hj2 => by
        have hj : j = 1 := by omega
        subst hj
        rw [Function.update_same]) _]
      rw [Function.update_noteq (by omega)]
  rw [heval 0, heval 1, hdelta.1, hdelta.2]
  norm_num

/-- **C7 (amended).**  If all `P` beads hold the same position `x`, the
positions contraction produces `P'` copies of `x`; if all `P'` contracted
forces equal `c`, the forces extension adds `c` to *every* one of the `P`
full-bead forces (so the total added over the beads is `P·c`, not `c`). -/
theorem contraction_constant (P Pc : ℕ) (h1 : 1 ≤ Pc) (h2 : Pc < P)
    (x c : ℝ) (F : ℕ → ℝ) :
    (∀ k, k < Pc → contractPos P Pc (fun _ => x) k = x)
    ∧ (∀ k, extendForces P Pc (fun _ => c) F k = F k + c) := by
  have hP0 : (P : ℝ) ≠ 0 := Nat.cast_ne_zero.mpr (by omega)
  have hPc0 : (Pc : ℝ) ≠ 0 := Nat.cast_ne_zero.mpr (by omega)
  have hfwd0 : dftFwd P (fun _ => ((x : ℝ) : ℂ)) 0 = (P : ℂ) * (x : ℂ) := by
    rw [dftFwd_const P _ 0 (by omega), if_pos rfl]
  constructor
  · -- positions: every contracted bead equals x
    intro k hk
    by_cases hPc : 1 < Pc
    · simp only [contractPos, if_pos hPc]
      have hpacked0 : packShift P Pc (dftFwd P (fun _ => ((x : ℝ) : ℂ))) 0
          = (P : ℂ) * (x : ℂ) := by
        rw [packShift_eval P Pc h1 h2 _ 0 (by omega),
            show binMap P Pc 0 = 0 from by
              simp only [binMap]
              rw [if_pos (by omega)], hfwd0]
      have hdel : dftInv Pc (packShift P Pc (dftFwd P (fun _ => ((x : ℝ) : ℂ)))) k
          = (P : ℂ) * (x : ℂ) := by
        rw [dftInv_delta Pc _ (by omega) (fun j hj1 hj2 => by
          rw [packShift_eval P Pc h1 h2 _ j hj2,
              dftFwd_const P _ _ (binMap_lt P Pc j h2.le hj2),
              if_neg (binMap_ne_zero P Pc j hj1)]) k]
        exact hpacked0
      rw [hdel]
      have : ((P : ℕ) : ℂ) * ((x : ℝ) : ℂ) = (((P : ℝ) * x : ℝ) : ℂ) := by
        push_cast
        ring
      rw [this, Complex.ofReal_re]
      field_simp
    · have hPc1 : Pc = 1 := by omega
      subst hPc1
      have hk0 : k = 0 := by omega
      subst hk0
      simp only [contractPos, if_neg hPc]
      rw [hfwd0]
      have : ((P : ℕ) : ℂ) * ((x : ℝ) : ℂ) = (((P : ℝ) * x : ℝ) : ℂ) := by
        push_cast
        ring
      rw [this, Complex.ofReal_re]
      field_simp
  · -- forces: every full bead receives exactly c
    intro k
    have hstart1 : 1 ≤ (Pc + 1) / 2 := by omega
    set q1 : ℕ → ℂ := if 1 < Pc then dftFwd Pc (fun _ => ((c : ℝ) : ℂ))
        else fun _ => ((c : ℝ) : ℂ) with hq1
    have hq1zero : ∀ j, 1 ≤ j → j < Pc → q1 j = 0 := by
      intro j hj1 hj2
      rw [hq1]
      have hPc : 1 < Pc := by omega
      rw [if_pos hPc, dftFwd_const Pc _ j (by omega), if_neg (by omega)]
    have hq10 : q1 0 = (Pc : ℂ) * (c : ℂ) := by
      rw [hq1]
      by_cases hPc : 1 < Pc
      · rw [if_pos hPc, dftFwd_const Pc _ 0 (by omega), if_pos rfl]
      · have hPc1 : Pc = 1 := by omega
        subst hPc1
        rw [if_neg hPc]
        simp
    have hunp := unpackFold_zero
      (List.range' (P - Pc + (Pc + 1) / 2) (P - (P - Pc + (Pc + 1) / 2)))
      (P - Pc) Pc q1 (List.nodup_range' _ _ 1 (by norm_num))
      (by
        intro t ht
        rw [List.mem_range'_1] at ht
        refine ⟨by omega, by omega, by omega⟩)
      hq1zero
    have hq3zero : ∀ j, 1 ≤ j → j < P →
        zeroMid P Pc (unpackShift P Pc q1) j = 0 := by
      intro j hj1 hjP
      simp only [zeroMid, unpackShift]
      rw [zeroFold_eval (P - Pc) ((Pc + 1) / 2) _ j]
      by_cases hjmid : (Pc + 1) / 2 ≤ j ∧ j < (Pc + 1) / 2 + (P - Pc)
      · rw [if_pos hjmid]
      · rw [if_neg hjmid]
        by_cases hjlow : j < Pc
        · exact hunp.1 j hj1 hjlow
        · exact hunp.2.1 j (by rw [List.mem_range'_1]; omega)
    have hq30 : zeroMid P Pc (unpackShift P Pc q1) 0 = (Pc : ℂ) * (c : ℂ) := by
      simp only [zeroMid, unpackShift]
      rw [zeroFold_eval (P - Pc) ((Pc + 1) / 2) _ 0, if_neg (by omega)]
      exact hunp.2.2.trans hq10
    show F k + (1 / (Pc : ℝ))
        * ((dftInv P (zeroMid P Pc (unpackShift P Pc q1))) k).re = F k + c
    rw [dftInv_delta P _ (by omega) hq3zero k, hq30]
    have : ((Pc : ℕ) : ℂ) * ((c : ℝ) : ℂ) = (((Pc : ℝ) * c : ℝ) : ℂ) := by
      push_cast
      ring
    rw [this, Complex.ofReal_re]
    field_simp

/-- Witness for `contraction_constant` at `P = 3`, `P' = 2`, `x = 5`,
`c = 7`. -/
theorem contraction_constant_witness :
    (1 ≤ 2 ∧ 2 < 3)
    ∧ contractPos 3 2 (fun _ => (5 : ℝ)) 0 = 5
    ∧ extendForces 3 2 (fun _ => (7 : ℝ)) (fun _ => 0) 1 = (fun _ => (0 : ℝ)) 1 + 7 :=
  ⟨by omega,
    (contraction_constant 3 2 (by omega) (by omega) 5 7 (fun _ => 0)).1 0 (by omega),
    (contraction_constant 3 2 (by omega) (by omega) 5 7 (fun _ => 0)).2 1⟩

theorem sum_two_pow_range (n : ℕ) : ∑ i ∈ Finset.range n, 2 ^ i = 2 ^ n - 1 := by
  induction n with
  | zero => simp
  | succ m ih =>
      rw [Finset.sum_range_succ, ih]
      have h1 : 1 ≤ 2 ^ m := Nat.one_le_two_pow
      have h2 : 2 ^ (m + 1) = 2 ^ m * 2 := pow_succ 2 m
      omega

/-- A sum of distinct powers of two has exactly the summed bits set. -/
theorem testBit_bitSum (S : Finset ℕ) (b : ℕ) :
    (∑ i ∈ S, 2 ^ i).testBit b = decide (b ∈ S) := by
  induction S using Finset.induction_on_max with
  | h0 => simp [Nat.zero_testBit]
  | step a S hmax ih =>
      have ha : a ∉ S := fun h => lt_irrefl a (hmax a h)
      rw [Finset.sum_insert ha]
      have hSlt : ∑ i ∈ S, 2 ^ i < 2 ^ a := by
        have hsub : S ⊆ Finset.range a := fun x hx => Finset.mem_range.mpr (hmax x hx)
        calc ∑ i ∈ S, 2 ^ i ≤ ∑ i ∈ Finset.range a, 2 ^ i :=
              Finset.sum_le_sum_of_subset hsub
          _ = 2 ^ a - 1 := sum_two_pow_range a
          _ < 2 ^ a := by
              have := Nat.one_le_two_pow (n := a)
              omega
      rcases Nat.lt_trichotomy b a with hb | hb | hb
      · rw [Nat.testBit_two_pow_add_gt hb, ih]
        refine decide_eq_decide.mpr ?_
        rw [Finset.mem_insert]
        constructor
        · exact Or.inr
        · rintro (rfl | h)
          · omega
          · exact h
      · subst hb
        rw [Nat.testBit_two_pow_add_eq, Nat.testBit_lt_two_pow hSlt]
        simp
      · have hlt : 2 ^ a + ∑ i ∈ S, 2 ^ i < 2 ^ b := by
          have h2 : 2 ^ (a + 1) ≤ 2 ^ b := Nat.pow_le_pow_right (by omega) (by omega)
          have h3 : 2 ^ (a + 1) = 2 ^ a * 2 := pow_succ 2 a
          omega
        rw [Nat.testBit_lt_two_pow hlt]
        have : b ∉ insert a S := by
          simp only [Finset.mem_insert]
          rintro (rfl | hbS)
          · omega
          · exact absurd (hmax b hbS) (by omega)
        simp [this]

/-- High bits of a number below `2^n` are clear. -/
theorem testBit_ge_false {x n b : ℕ} (hx : x < 2 ^ n) (hb : n ≤ b) :
    x.testBit b = false :=
  Nat.testBit_lt_two_pow (lt_of_lt_of_le hx (Nat.pow_le_pow_right (by omega) hb))

theorem testBit_maskUnion (l : List (ℤ × ℕ)) (b : ℕ) :
    (maskUnion l).testBit b = true ↔ ∃ p ∈ l, p.2.testBit b = true := by
  induction l with
  | nil => simp [maskUnion, Nat.zero_testBit]
  | cons p t ih =>
      simp only [maskUnion, List.foldr_cons, Nat.testBit_lor, Bool.or_eq_true,
        List.mem_cons]
      constructor
      · rintro (hp | ht)
        · exact ⟨p, Or.inl rfl, hp⟩
        · rcases (ih).mp ht with ⟨q, hq, hqb⟩
          exact ⟨q, Or.inr hq, hqb⟩
      · rintro ⟨q, hq | hq, hqb⟩
        · subst hq
          exact Or.inl hqb
        · exact Or.inr ((ih).mpr ⟨q, hq, hqb⟩)

theorem lookup_none_forall (c : ℤ) :
    ∀ (l : List (ℤ × ℕ)), l.lookup c = none → ∀ p ∈ l, p.1 ≠ c := by
  intro l
  induction l with
  | nil => intro _ p hp; exact absurd hp (List.not_mem_nil p)
  | cons q t ih =>
      intro hl p hp
      rw [show q = (q.1, q.2) from rfl, List.lookup_cons] at hl
      rcases List.mem_cons.mp hp with hpq | hpt
      · subst hpq
        intro hpc
        rw [show (c == p.1) = true from by simp [hpc]] at hl
        exact Option.noConfusion hl
      · rcases hbeq : (c == q.1) with hf | ht
        · rw [hbeq] at hl
          exact ih hl p hpt
        · rw [hbeq] at hl
          exact Option.noConfusion hl

theorem lookup_some_exists (c : ℤ) :
    ∀ (l : List (ℤ × ℕ)) (m : ℕ), l.lookup c = some m → ∃ p ∈ l, p.1 = c := by
  intro l
  induction l with
  | nil => intro m hm; exact Option.noConfusion hm
  | cons q t ih =>
      intro m hm
      rw [show q = (q.1, q.2) from rfl, List.lookup_cons] at hm
      rcases hbeq : (c == q.1) with hf | ht
      · rw [hbeq] at hm
        rcases ih m hm with ⟨p, hp, hpc⟩
        exact ⟨p, List.mem_cons_of_mem q hp, hpc⟩
      · exact ⟨q, List.mem_cons_self q t, (beq_iff_eq.mp hbeq).symm⟩

theorem bitSum_lor_two_pow (S : Finset ℕ) (g : ℕ) :
    (∑ b ∈ S, 2 ^ b) ||| 2 ^ g = ∑ b ∈ insert g S, 2 ^ b := by
  apply Nat.eq_of_testBit_eq
  intro i
  rw [Nat.testBit_lor, testBit_bitSum, testBit_bitSum, Nat.testBit_two_pow]
  by_cases hS : i ∈ S <;> by_cases hg : g = i <;>
    simp [hS, hg, Finset.mem_insert, eq_comm]

theorem gNC_sub_bit {st : ScheduleState} {A : Finset ℕ} (gN : ℕ)
    (hgNC : st.groupsNotContracted = ∑ b ∈ Finset.range 32 \ A, 2 ^ b)
    (hg31 : gN < 32) (hfresh : gN ∉ A) :
    st.groupsNotContracted - 2 ^ gN
      = ∑ b ∈ Finset.range 32 \ insert gN A, 2 ^ b := by
  have hmem : gN ∈ Finset.range 32 \ A := by
    rw [Finset.mem_sdiff, Finset.mem_range]
    exact ⟨hg31, hfresh⟩
  have hsum : st.groupsNotContracted
      = 2 ^ gN + ∑ b ∈ (Finset.range 32 \ A).erase gN, 2 ^ b := by
    rw [hgNC, Finset.add_sum_erase _ _ hmem]
  have herase : (Finset.range 32 \ A).erase gN = Finset.range 32 \ insert gN A := by
    ext b
    simp only [Finset.mem_erase, Finset.mem_sdiff, Finset.mem_range,
      Finset.mem_insert]
    constructor
    · rintro ⟨hne, hlt, hnA⟩
      exact ⟨hlt, fun h => h.elim hne hnA⟩
    · rintro ⟨hlt, hn⟩
      exact ⟨fun h => hn (Or.inl h), hlt, fun h => hn (Or.inr h)⟩
  rw [hsum, herase, Nat.add_sub_cancel_left]

theorem inv_step_none {st : ScheduleState} {A : Finset ℕ} {assign : ℤ → Finset ℕ}
    (c : ℤ) (gN : ℕ) (hg31 : gN < 32) (hfresh : gN ∉ A)
    (hinv : Inv st A assign) (hlk : st.groupsByCopies.lookup c = none) (mx : ℤ) :
    Inv ⟨st.groupsByCopies ++ [(c, 2 ^ gN)], st.groupsNotContracted - 2 ^ gN, mx⟩
      (insert gN A) (fun c' => if c' = c then {gN} else assign c') := by
  obtain ⟨h1, h2, h3, h4, h5, h6, h7⟩ := hinv
  have hkeys := lookup_none_forall c _ hlk
  refine ⟨?_, ?_, ?_, ?_, ?_, ?_, ?_⟩
  · intro b hb
    rcases Finset.mem_insert.mp hb with rfl | hbA
    · exact Finset.mem_range.mpr hg31
    · exact h1 hbA
  · exact gNC_sub_bit gN h2 hg31 hfresh
  · intro p hp
    rcases List.mem_append.mp hp with hpo | hpn
    · show p.2 = ∑ b ∈ (if p.1 = c then {gN} else assign p.1), 2 ^ b
      rw [if_neg (hkeys p hpo)]
      exact h3 p hpo
    · have hpe := List.mem_singleton.mp hpn
      subst hpe
      show 2 ^ gN = ∑ b ∈ (if c = c then {gN} else assign c), 2 ^ b
      rw [if_pos rfl, Finset.sum_singleton]
  · intro p hp
    rcases List.mem_append.mp hp with hpo | hpn
    · show (if p.1 = c then {gN} else assign p.1) ⊆ insert gN A
      rw [if_neg (hkeys p hpo)]
      exact (h4 p hpo).trans (Finset.subset_insert gN A)
    · have hpe := List.mem_singleton.mp hpn
      subst hpe
      show (if c = c then {gN} else assign c) ⊆ insert gN A
      rw [if_pos rfl]
      exact Finset.singleton_subset_iff.mpr (Finset.mem_insert_self gN A)
  · rw [List.pairwise_append]
    refine ⟨?_, List.pairwise_singleton _ _, ?_⟩
    · refine h5.imp_of_mem ?_
      intro p q hp hq hpq
      show Disjoint (if p.1 = c then {gN} else assign p.1)
        (if q.1 = c then {gN} else assign q.1)
      rw [if_neg (hkeys p hp), if_neg (hkeys q hq)]
      exact hpq
    · intro p hp b hb
      have hbe := List.mem_singleton.mp hb
      subst hbe
      show Disjoint (if p.1 = c then {gN} else assign p.1)
        (if c = c then {gN} else assign c)
      rw [if_neg (hkeys p hp), if_pos rfl, Finset.disjoint_singleton_right]
      exact fun hgp => hfresh (h4 p hp hgp)
  · intro b hb
    rcases Finset.mem_insert.mp hb with rfl | hbA
    · refine ⟨(c, 2 ^ b), List.mem_append_right _ (List.mem_singleton_self _), ?_⟩
      show b ∈ (if c = c then {b} else assign c)
      rw [if_pos rfl]
      exact Finset.mem_singleton_self b
    · rcases h6 b hbA with ⟨p, hp, hbp⟩
      refine ⟨p, List.mem_append_left _ hp, ?_⟩
      show b ∈ (if p.1 = c then {gN} else assign p.1)
      rw [if_neg (hkeys p hp)]
      exact hbp
  · rw [List.map_append, List.nodup_append]
    refine ⟨h7, List.nodup_singleton c, ?_⟩
    intro a ha hac
    rcases List.mem_map.mp ha with ⟨p, hp, rfl⟩
    exact hkeys p hp (List.mem_singleton.mp hac)

theorem inv_step_some {st : ScheduleState} {A : Finset ℕ} {assign : ℤ → Finset ℕ}
    (c : ℤ) (gN m : ℕ) (hg31 : gN < 32) (hfresh : gN ∉ A)
    (hinv : Inv st A assign) (hlk : st.groupsByCopies.lookup c = some m) :
    Inv ⟨st.groupsByCopies.map
          (fun p => if p.1 = c then (p.1, p.2 ||| 2 ^ gN) else p),
        st.groupsNotContracted - 2 ^ gN, st.maxContractedCopies⟩
      (insert gN A)
      (fun c' => if c' = c then insert gN (assign c') else assign c') := by
  obtain ⟨h1, h2, h3, h4, h5, h6, h7⟩ := hinv
  have hkeyeq : ∀ p : ℤ × ℕ,
      ((if p.1 = c then (p.1, p.2 ||| 2 ^ gN) else p) : ℤ × ℕ).1 = p.1 := by
    intro p
    by_cases h : p.1 = c <;> simp [h]
  have hkeynd : List.Pairwise (fun p q : ℤ × ℕ => p.1 ≠ q.1) st.groupsByCopies :=
    List.pairwise_map.mp h7
  refine ⟨?_, ?_, ?_, ?_, ?_, ?_, ?_⟩
  · intro b hb
    rcases Finset.mem_insert.mp hb with rfl | hbA
    · exact Finset.mem_range.mpr hg31
    · exact h1 hbA
  · exact gNC_sub_bit gN h2 hg31 hfresh
  · intro p' hp'
    rcases List.mem_map.mp hp' with ⟨p, hp, rfl⟩
    by_cases hpc : p.1 = c
    · rw [if_pos hpc]
      show p.2 ||| 2 ^ gN
        = ∑ b ∈ (if p.1 = c then insert gN (assign p.1) else assign p.1), 2 ^ b
      rw [if_pos hpc, h3 p hp, bitSum_lor_two_pow]
    · rw [if_neg hpc]
      show p.2 = ∑ b ∈ (if p.1 = c then insert gN (assign p.1) else assign p.1), 2 ^ b
      rw [if_neg hpc]
      exact h3 p hp
  · intro p' hp'
    rcases List.mem_map.mp hp' with ⟨p, hp, rfl⟩
    rw [hkeyeq p]
    show (if p.1 = c then insert gN (assign p.1) else assign p.1) ⊆ insert gN A
    by_cases hpc : p.1 = c
    · rw [if_pos hpc]
      exact Finset.insert_subset_insert gN (h4 p hp)
    · rw [if_neg hpc]
      exact (h4 p hp).trans (Finset.subset_insert gN A)
  · rw [List.pairwise_map]
    refine (h5.and hkeynd).imp_of_mem ?_
    intro p q hp hq hpq
    obtain ⟨hdisj, hne⟩ := hpq
    show Disjoint
      (if ((if p.1 = c then (p.1, p.2 ||| 2 ^ gN) else p) : ℤ × ℕ).1 = c
        then insert gN (assign ((if p.1 = c then (p.1, p.2 ||| 2 ^ gN) else p) : ℤ × ℕ).1)
        else assign ((if p.1 = c then (p.1, p.2 ||| 2 ^ gN) else p) : ℤ × ℕ).1)
      (if ((if q.1 = c then (q.1, q.2 ||| 2 ^ gN) else q) : ℤ × ℕ).1 = c
        then insert gN (assign ((if q.1 = c then (q.1, q.2 ||| 2 ^ gN) else q) : ℤ × ℕ).1)
        else assign ((if q.1 = c then (q.1, q.2 ||| 2 ^ gN) else q) : ℤ × ℕ).1)
    rw [hkeyeq p, hkeyeq q]
    by_cases hpc : p.1 = c <;> by_cases hqc : q.1 = c
    · exact absurd (hpc.trans hqc.symm) hne
    · rw [if_pos hpc, if_neg hqc, Finset.disjoint_insert_left]
      exact ⟨fun hgq => hfresh (h4 q hq hgq), hdisj⟩
    · rw [if_neg hpc, if_pos hqc, Finset.disjoint_insert_right]
      exact ⟨fun hgp => hfresh (h4 p hp hgp), hdisj⟩
    · rw [if_neg hpc, if_neg hqc]
      exact hdisj
  · intro b hb
    rcases Finset.mem_insert.mp hb with rfl | hbA
    · rcases lookup_some_exists c _ m hlk with ⟨p, hp, hpc⟩
      refine ⟨(if p.1 = c then (p.1, p.2 ||| 2 ^ b) else p),
        List.mem_map_of_mem _ hp, ?_⟩
      rw [hkeyeq p]
      show b ∈ (if p.1 = c then insert b (assign p.1) else assign p.1)
      rw [if_pos hpc]
      exact Finset.mem_insert_self b _
    · rcases h6 b hbA with ⟨p, hp, hbp⟩
      refine ⟨(if p.1 = c then (p.1, p.2 ||| 2 ^ gN) else p),
        List.mem_map_of_mem _ hp, ?_⟩
      rw [hkeyeq p]
      show b ∈ (if p.1 = c then insert gN (assign p.1) else assign p.1)
      by_cases hpc : p.1 = c
      · rw [if_pos hpc]
        exact Finset.mem_insert_of_mem hbp
      · rw [if_neg hpc]
        exact hbp
  · rw [List.map_map]
    have hcomp : (Prod.fst ∘ fun p : ℤ × ℕ =>
        if p.1 = c then (p.1, p.2 ||| 2 ^ gN) else p) = Prod.fst :=
      funext hkeyeq
    rw [hcomp]
    exact h7

/-- The schedule-building fold preserves the invariant. -/
theorem fold_inv (P : ℤ) :
    ∀ (l : List (ℤ × ℤ)) (st : ScheduleState) (A : Finset ℕ)
      (assign : ℤ → Finset ℕ) (st' : ScheduleState),
      (l.map Prod.fst).Nodup →
      (∀ gc ∈ l, 0 ≤ gc.1 → gc.1.toNat ∉ A) →
      Inv st A assign →
      l.foldlM (addContraction P) st = .ok st' →
      ∃ A' assign', Inv st' A' assign' := by
  intro l
  induction l with
  | nil =>
      intro st A assign st' _ _ hinv hok
      rw [List.foldlM_nil] at hok
      have hok' : st = st' := Except.ok.inj hok
      exact ⟨A, assign, hok' ▸ hinv⟩
  | cons gc t ih =>
      intro st A assign st' hnd hfr hinv hok
      obtain ⟨g, c⟩ := gc
      rw [List.foldlM_cons] at hok
      by_cases hg : g < 0 ∨ g > 31
      · rw [show addContraction P st (g, c) = .error errGroup from by
            simp only [addContraction]
            rw [if_pos hg]] at hok
        exact Except.noConfusion
          (show (Except.error errGroup : Except String ScheduleState) = .ok st'
            from hok)
      · by_cases hc : c < 0 ∨ c > P
        · rw [show addContraction P st (g, c) = .error errCopies from by
              simp only [addContraction]
              rw [if_neg hg, if_pos hc]] at hok
          exact Except.noConfusion
            (show (Except.error errCopies : Except String ScheduleState) = .ok st'
              from hok)
        · have hndt : (t.map Prod.fst).Nodup := (List.nodup_cons.mp hnd).2
          have hghd : g ∉ t.map Prod.fst := (List.nodup_cons.mp hnd).1
          by_cases hcP : c = P
          · rw [show addContraction P st (g, c) = .ok st from by
                simp only [addContraction]
                rw [if_neg hg, if_neg hc, if_neg (not_not_intro hcP)]] at hok
            have hok' : t.foldlM (addContraction P) st = .ok st' := hok
            exact ih st A assign st' hndt
              (fun gc' hgc' => hfr gc' (List.mem_cons_of_mem _ hgc')) hinv hok'
          · have hg0 : 0 ≤ g := by omega
            have hg31 : g.toNat < 32 := by omega
            have hfreshg : g.toNat ∉ A := hfr (g, c) (List.mem_cons_self _ _) hg0
            have hfrt : ∀ gc' ∈ t, 0 ≤ gc'.1 → gc'.1.toNat ∉ insert g.toNat A := by
              intro gc' hgc' hgc0 hmem
              rcases Finset.mem_insert.mp hmem with heq | hmemA
              · have : gc'.1 = g := by omega
                exact hghd (this ▸ List.mem_map_of_mem Prod.fst hgc')
              · exact hfr gc' (List.mem_cons_of_mem _ hgc') hgc0 hmemA
            rcases hlk : st.groupsByCopies.lookup c with _ | m
            · rw [show addContraction P st (g, c)
                  = .ok ⟨st.groupsByCopies ++ [(c, 2 ^ g.toNat)],
                      st.groupsNotContracted - 2 ^ g.toNat,
                      if c > st.maxContractedCopies then c
                      else st.maxContractedCopies⟩ from by
                  simp only [addContraction]
                  rw [if_neg hg, if_neg hc, if_pos hcP, hlk]] at hok
              have hok' : t.foldlM (addContraction P)
                  ⟨st.groupsByCopies ++ [(c, 2 ^ g.toNat)],
                    st.groupsNotContracted - 2 ^ g.toNat,
                    if c > st.maxContractedCopies then c
                    else st.maxContractedCopies⟩ = .ok st' := hok
              exact ih _ (insert g.toNat A) _ st' hndt hfrt
                (inv_step_none c g.toNat hg31 hfreshg ⟨hinv.1, hinv.2.1, hinv.2.2.1,
                  hinv.2.2.2.1, hinv.2.2.2.2.1, hinv.2.2.2.2.2.1,
                  hinv.2.2.2.2.2.2⟩ hlk _) hok'
            · rw [show addContraction P st (g, c)
                  = .ok ⟨st.groupsByCopies.map
                        (fun p => if p.1 = c then (p.1, p.2 ||| 2 ^ g.toNat) else p),
                      st.groupsNotContracted - 2 ^ g.toNat,
                      st.maxContractedCopies⟩ from by
                  simp only [addContraction]
                  rw [if_neg hg, if_neg hc, if_pos hcP, hlk]] at hok
              have hok' : t.foldlM (addContraction P)
                  ⟨st.groupsByCopies.map
                      (fun p => if p.1 = c then (p.1, p.2 ||| 2 ^ g.toNat) else p),
                    st.groupsNotContracted - 2 ^ g.toNat,
                    st.maxContractedCopies⟩ = .ok st' := hok
              exact ih _ (insert g.toNat A) _ st' hndt hfrt
                (inv_step_some c g.toNat m hg31 hfreshg hinv hlk) hok'

/-- **C5.** After `initialize` succeeds: `(groupsNotContracted ∪ union of
contraction masks) ∩ integrationGroups = integrationGroups`,
`groupsNotContracted` is disjoint from every contraction mask, and masks
for distinct copy counts are pairwise disjoint — the schedule partitions
the active groups. -/
theorem schedule_partition (P : ℤ) (integF : ℕ) (l : List (ℤ × ℤ))
    (st : ScheduleState) (hnd : (l.map Prod.fst).Nodup) (hF : integF < 2 ^ 32)
    (hok : buildSchedule P integF l = .ok st) :
    ((st.groupsNotContracted ||| maskUnion st.groupsByCopies) &&& integF = integF)
    ∧ (∀ p ∈ st.groupsByCopies, st.groupsNotContracted &&& p.2 = 0)
    ∧ List.Pairwise (fun p q : ℤ × ℕ => p.2 &&& q.2 = 0) st.groupsByCopies := by
  rcases hfold : l.foldlM (addContraction P) initState with e | st0
  · rw [buildSchedule, hfold] at hok
    exact Except.noConfusion
      (show (Except.error e : Except String ScheduleState) = .ok st from hok)
  · rw [buildSchedule, hfold] at hok
    have hok' : Except.ok { st0 with
        groupsNotContracted := st0.groupsNotContracted &&& integF } = .ok st := hok
    have hst := Except.ok.inj hok'
    have hinv0 : Inv initState ∅ (fun _ => ∅) := by
      refine ⟨Finset.empty_subset _, ?_, ?_, ?_, List.Pairwise.nil, ?_, List.nodup_nil⟩
      · rw [Finset.sdiff_empty, sum_two_pow_range]
        rfl
      · intro p hp
        exact absurd hp (List.not_mem_nil p)
      · intro p hp
        exact absurd hp (List.not_mem_nil p)
      · intro b hb
        exact absurd hb (Finset.not_mem_empty b)
    rcases fold_inv P l initState ∅ (fun _ => ∅) st0 hnd
      (fun gc _ _ => Finset.not_mem_empty _) hinv0 hfold with ⟨A, assign, hinv⟩
    obtain ⟨h1, h2, h3, h4, h5, h6, h7⟩ := hinv
    subst hst
    refine ⟨?_, ?_, ?_⟩
    · show ((st0.groupsNotContracted &&& integF
          ||| maskUnion st0.groupsByCopies) &&& integF = integF)
      apply Nat.eq_of_testBit_eq
      intro b
      simp only [Nat.testBit_land, Nat.testBit_lor]
      cases hFb : integF.testBit b with
      | false => simp
      | true =>
          have hb32 : b < 32 := by
            by_contra hge
            rw [testBit_ge_false hF (by omega)] at hFb
            exact Bool.noConfusion hFb
          simp only [Bool.and_true]
          cases hgb : st0.groupsNotContracted.testBit b with
          | false =>
              have hbA : b ∈ A := by
                by_contra hbA
                rw [h2, testBit_bitSum] at hgb
                have hmem : b ∈ Finset.range 32 \ A :=
                  Finset.mem_sdiff.mpr ⟨Finset.mem_range.mpr hb32, hbA⟩
                simp [hmem] at hgb
              rcases h6 b hbA with ⟨p, hp, hbp⟩
              have hU : (maskUnion st0.groupsByCopies).testBit b = true :=
                (testBit_maskUnion _ b).mpr
                  ⟨p, hp, by rw [h3 p hp, testBit_bitSum]; simp [hbp]⟩
              simp [hU]
          | true => simp
    · intro p hp
      show st0.groupsNotContracted &&& integF &&& p.2 = 0
      apply Nat.eq_of_testBit_eq
      intro b
      simp only [Nat.testBit_land, Nat.zero_testBit]
      cases hmb : p.2.testBit b with
      | false => simp
      | true =>
          have hbp : b ∈ assign p.1 := by
            rw [h3 p hp, testBit_bitSum] at hmb
            exact of_decide_eq_true hmb
          have hbA : b ∈ A := h4 p hp hbp
          have hgb : st0.groupsNotContracted.testBit b = false := by
            rw [h2, testBit_bitSum]
            simp only [decide_eq_false_iff_not, Finset.mem_sdiff, not_and, not_not]
            intro _
            exact hbA
          simp [hgb]
    · show List.Pairwise (fun p q : ℤ × ℕ => p.2 &&& q.2 = 0) st0.groupsByCopies
      refine h5.imp_of_mem ?_
      intro p q hp hq hdisj
      apply Nat.eq_of_testBit_eq
      intro b
      rw [Nat.testBit_land, h3 p hp, h3 q hq, testBit_bitSum, testBit_bitSum,
          Nat.zero_testBit]
      by_cases hb : b ∈ assign p.1
      · have hbq : b ∉ assign q.1 := Finset.disjoint_left.mp hdisj hb
        simp [hb, hbq]
      · simp [hb]

/-- Witness for `schedule_partition`: `P = 4`, `integrationGroups = 3`,
contractions `{group 1 ↦ 2 copies}`. -/
theorem schedule_partition_witness :
    ((1 ||| maskUnion [((2 : ℤ), (2 : ℕ))]) &&& 3 = 3)
    ∧ (∀ p ∈ [((2 : ℤ), (2 : ℕ))], 1 &&& p.2 = 0)
    ∧ List.Pairwise (fun p q : ℤ × ℕ => p.2 &&& q.2 = 0) [((2 : ℤ), (2 : ℕ))] :=
  schedule_partition 4 3 [(1, 2)] ⟨[(2, 2)], 1, 2⟩ (by decide) (by norm_num) rfl

/-- Error behaviour of the schedule-building fold: it fails exactly on a
group outside `[0, 31]` or a copy count outside `[0, P]`, with the group
message for a bad group and the copies message for a bad copy count. -/
theorem fold_error_char (P : ℤ) :
    ∀ (l : List (ℤ × ℤ)) (st : ScheduleState),
      ((∃ gc ∈ l, gc.1 < 0 ∨ gc.1 > 31 ∨ gc.2 < 0 ∨ gc.2 > P)
        ↔ ∃ e, l.foldlM (addContraction P) st = .error e)
      ∧ (∀ e, l.foldlM (addContraction P) st = .error e →
          e = errGroup ∨ e = errCopies)
      ∧ (l.foldlM (addContraction P) st = .error errGroup →
          ∃ gc ∈ l, gc.1 < 0 ∨ gc.1 > 31)
      ∧ (l.foldlM (addContraction P) st = .error errCopies →
          ∃ gc ∈ l, gc.2 < 0 ∨ gc.2 > P) := by
  intro l
  induction l with
  | nil =>
      intro st
      refine ⟨?_, ?_, ?_, ?_⟩
      · constructor
        · rintro ⟨gc, hgc, -⟩
          exact absurd hgc (List.not_mem_nil gc)
        · rintro ⟨e, he⟩
          rw [List.foldlM_nil] at he
          exact Except.noConfusion
            (show (Except.ok st : Except String ScheduleState) = .error e from he)
      · intro e he
        rw [List.foldlM_nil] at he
        exact absurd
          (show (Except.ok st : Except String ScheduleState) = .error e from he)
          (by simp)
      · intro he
        rw [List.foldlM_nil] at he
        exact absurd
          (show (Except.ok st : Except String ScheduleState) = .error errGroup
            from he) (by simp)
      · intro he
        rw [List.foldlM_nil] at he
        exact absurd
          (show (Except.ok st : Except String ScheduleState) = .error errCopies
            from he) (by simp)
  | cons gc t ih =>
      intro st
      obtain ⟨g, c⟩ := gc
      by_cases hg : g < 0 ∨ g > 31
      · have hadd : addContraction P st (g, c) = .error errGroup := by
          simp only [addContraction]
          rw [if_pos hg]
        have hrun : ((g, c) :: t).foldlM (addContraction P) st = .error errGroup := by
          rw [List.foldlM_cons, hadd]
          rfl
        refine ⟨?_, ?_, ?_, ?_⟩
        · constructor
          · intro _
            exact ⟨errGroup, hrun⟩
          · intro _
            exact ⟨(g, c), List.mem_cons_self _ _, by tauto⟩
        · intro e he
          rw [hrun] at he
          exact Or.inl (Except.error.inj he).symm
        · intro _
          exact ⟨(g, c), List.mem_cons_self _ _, hg⟩
        · intro he
          rw [hrun] at he
          exact absurd (Except.error.inj he) (by decide)
      · by_cases hc : c < 0 ∨ c > P
        · have hadd : addContraction P st (g, c) = .error errCopies := by
            simp only [addContraction]
            rw [if_neg hg, if_pos hc]
          have hrun : ((g, c) :: t).foldlM (addContraction P) st
              = .error errCopies := by
            rw [List.foldlM_cons, hadd]
            rfl
          refine ⟨?_, ?_, ?_, ?_⟩
          · constructor
            · intro _
              exact ⟨errCopies, hrun⟩
            · intro _
              exact ⟨(g, c), List.mem_cons_self _ _, by tauto⟩
          · intro e he
            rw [hrun] at he
            exact Or.inr (Except.error.inj he).symm
          · intro he
            rw [hrun] at he
            exact absurd (Except.error.inj he) (by decide)
          · intro _
            exact ⟨(g, c), List.mem_cons_self _ _, hc⟩
        · obtain ⟨st1, hadd⟩ : ∃ st1, addContraction P st (g, c) = .ok st1 := by
            by_cases hcP : c = P
            · refine ⟨st, ?_⟩
              simp only [addContraction]
              rw [if_neg hg, if_neg hc, if_neg (not_not_intro hcP)]
            · rcases hlk : st.groupsByCopies.lookup c with _ | m
              · refine ⟨⟨st.groupsByCopies ++ [(c, 2 ^ g.toNat)],
                  st.groupsNotContracted - 2 ^ g.toNat,
                  if c > st.maxContractedCopies then c
                  else st.maxContractedCopies⟩, ?_⟩
                simp only [addContraction]
                rw [if_neg hg, if_neg hc, if_pos hcP, hlk]
              · refine ⟨⟨st.groupsByCopies.map
                    (fun p => if p.1 = c then (p.1, p.2 ||| 2 ^ g.toNat) else p),
                  st.groupsNotContracted - 2 ^ g.toNat,
                  st.maxContractedCopies⟩, ?_⟩
                simp only [addContraction]
                rw [if_neg hg, if_neg hc, if_pos hcP, hlk]
          have hrun : ((g, c) :: t).foldlM (addContraction P) st
              = t.foldlM (addContraction P) st1 := by
            rw [List.foldlM_cons, hadd]
            rfl
          obtain ⟨ih1, ih2, ih3, ih4⟩ := ih st1
          refine ⟨?_, ?_, ?_, ?_⟩
          · rw [hrun]
            constructor
            · rintro ⟨gc', hgc', hbad⟩
              rcases List.mem_cons.mp hgc' with heq | hmem
              · rw [heq] at hbad
                exfalso
                rcases hbad with hb | hb | hb | hb <;> omega
              · exact ih1.mp ⟨gc', hmem, hbad⟩
            · rintro ⟨e, he⟩
              rcases ih1.mpr ⟨e, he⟩ with ⟨gc', hmem, hbad⟩
              exact ⟨gc', List.mem_cons_of_mem _ hmem, hbad⟩
          · intro e he
            rw [hrun] at he
            exact ih2 e he
          · intro he
            rw [hrun] at he
            rcases ih3 he with ⟨gc', hmem, hbad⟩
            exact ⟨gc', List.mem_cons_of_mem _ hmem, hbad⟩
          · intro he
            rw [hrun] at he
            rcases ih4 he with ⟨gc', hmem, hbad⟩
            exact ⟨gc', List.mem_cons_of_mem _ hmem, hbad⟩

/-- **C8.** `initialize` raises a configuration error iff some contraction
entry has a force group outside `[0, 31]` or a copy count outside
`[0, P]`; the raised message is the force-group message (which contains
the words "Force group must be between 0 and 31") exactly when a bad group
is present at the failing entry, and the copy-count message otherwise. -/
theorem schedule_validation (P : ℤ) (integF : ℕ) (l : List (ℤ × ℤ)) :
    ((∃ gc ∈ l, gc.1 < 0 ∨ gc.1 > 31 ∨ gc.2 < 0 ∨ gc.2 > P)
      ↔ ∃ e, buildSchedule P integF l = .error e)
    ∧ (∀ e, buildSchedule P integF l = .error e → e = errGroup ∨ e = errCopies)
    ∧ (buildSchedule P integF l = .error errGroup →
        ∃ gc ∈ l, gc.1 < 0 ∨ gc.1 > 31)
    ∧ (buildSchedule P integF l = .error errCopies →
        ∃ gc ∈ l, gc.2 < 0 ∨ gc.2 > P) := by
  have hbr : ∀ e, buildSchedule P integF l = .error e
      ↔ l.foldlM (addContraction P) initState = .error e := by
    intro e
    rw [buildSchedule]
    rcases hfold : l.foldlM (addContraction P) initState with e' | st0
    · constructor
      · intro h
        have he' : e' = e := Except.error.inj
          (show (Except.error e' : Except String ScheduleState) = .error e from h)
        rw [he']
      · intro h
        have he' : e' = e := Except.error.inj h
        rw [he']
        rfl
    · constructor
      · intro h
        exact absurd
          (show (Except.ok _ : Except String ScheduleState) = .error e from h)
          (by simp)
      · intro h
        exact Except.noConfusion h
  obtain ⟨f1, f2, f3, f4⟩ := fold_error_char P l initState
  refine ⟨?_, ?_, ?_, ?_⟩
  · rw [f1]
    constructor
    · rintro ⟨e, he⟩
      exact ⟨e, (hbr e).mpr he⟩
    · rintro ⟨e, he⟩
      exact ⟨e, (hbr e).mp he⟩
  · intro e he
    exact f2 e ((hbr e).mp he)
  · intro he
    exact f3 ((hbr errGroup).mp he)
  · intro he
    exact f4 ((hbr errCopies).mp he)

/-- Witness for `schedule_validation`: group `40` is out of range, and the
first call fails with the force-group message. -/
theorem schedule_validation_witness :
    ∃ gc ∈ [((40 : ℤ), (0 : ℤ))], gc.1 < 0 ∨ gc.1 > 31 :=
  (schedule_validation 2 0 [(40, 0)]).2.2.1 rfl

/-- **C10, counterexample.**  An entry whose copy count equals `P` is
*not* always error-free: its force group is still validated first, so
`{group −1 ↦ 4 copies}` with `P = 4` raises the force-group error rather
than being silently ignored. -/
theorem full_copy_counterexample :
    buildSchedule 4 0 [(-1, 4)] = .error errGroup
    ∧ buildSchedule 4 0 [] ≠ buildSchedule 4 0 [(-1, 4)] := by
  refine ⟨rfl, ?_⟩
  rw [show buildSchedule 4 0 [] = .ok ⟨[], 0, 0⟩ from rfl,
      show buildSchedule 4 0 [(-1, 4)] = .error errGroup from rfl]
  exact fun h => Except.noConfusion h

/-- **C10 (amended).**  A contraction entry whose copy count equals the
total number of copies `P` *and whose force group is valid* (`0 ≤ g ≤ 31`)
is silently ignored by `initialize`: removing it from the contraction map
leaves the entire result — `groupsByCopies`, `groupsNotContracted` and the
contracted-workspace size `maxContractedCopies` — unchanged. -/
theorem full_copy_ignored (P : ℤ) (integF : ℕ) (g : ℤ) (hg0 : 0 ≤ g)
    (hg31 : g ≤ 31) (hP : 0 ≤ P) (l1 l2 : List (ℤ × ℤ)) :
    buildSchedule P integF (l1 ++ (g, P) :: l2)
      = buildSchedule P integF (l1 ++ l2) := by
  have hcont : ∀ st : ScheduleState,
      ((g, P) :: l2).foldlM (addContraction P) st
        = l2.foldlM (addContraction P) st := by
    intro st
    rw [List.foldlM_cons,
        show addContraction P st (g, P) = .ok st from by
          simp only [addContraction]
          rw [if_neg (by omega), if_neg (by omega), if_neg (not_not_intro rfl)]]
    rfl
  rcases hl1 : l1.foldlM (addContraction P) initState with e | st1
  · rw [buildSchedule, buildSchedule, List.foldlM_append, List.foldlM_append, hl1]
    rfl
  · rw [buildSchedule, buildSchedule, List.foldlM_append, List.foldlM_append, hl1]
    show (((g, P) :: l2).foldlM (addContraction P) st1).map _
      = (l2.foldlM (addContraction P) st1).map _
    rw [hcont st1]

/-- Witness for `full_copy_ignored`: `P = 4`, the entry `(1, 4)` is
dropped without affecting the schedule built from `{2 ↦ 2 copies}`. -/
theorem full_copy_ignored_witness :
    (0 ≤ (1 : ℤ) ∧ (1 : ℤ) ≤ 31 ∧ 0 ≤ (4 : ℤ))
    ∧ buildSchedule 4 0 ([] ++ (1, 4) :: [(2, 2)]) = buildSchedule 4 0 ([] ++ [(2, 2)]) :=
  ⟨by omega, full_copy_ignored 4 0 1 (by omega) (by omega) (by omega) [] [(2, 2)]⟩

theorem andThen_error (x : OpenState) (e : String)
    (f : OpenState → OpenState × Option String) :
    andThen (x, some e) f = (x, some e) := rfl

theorem andThen_ok (x : OpenState) (f : OpenState → OpenState × Option String) :
    andThen (x, none) f = f x := rfl

theorem cf_cons (P N : ℕ) (engine : (ℕ → ℕ → ℝ) → ℕ → ℕ → ℝ) (hd : ℤ × ℕ)
    (tl : List (ℤ × ℕ)) (s : OpenState) :
    computeForcesOpenPath P N engine (hd :: tl) s
      = ({ gatherForces P N engine s with
            forces := halveEndpoints P N (gatherForces P N engine s).forces },
         some errOpenContraction) := rfl

theorem cf_nil (P N : ℕ) (engine : (ℕ → ℕ → ℝ) → ℕ → ℕ → ℝ) (s : OpenState) :
    computeForcesOpenPath P N engine [] s
      = ({ gatherForces P N engine s with
            forces := halveEndpoints P N (gatherForces P N engine s).forces },
         none) := rfl

/-- **C4, counterexample.**  With a non-empty contraction schedule the
open-path step raises `"Contractions are not implemented for LePIGS!"` —
not the claim's `"contractions not implemented for open path"` — and it
does so only *after* the full-`P` force pass and the endpoint halving have
mutated the state: starting from zero forces and an engine returning `2`,
bead 0's force is `1` when the error is raised. -/
theorem open_contraction_counterexample :
    (executeOpenPath 2 1 (fun _ => 1) (fun _ _ _ => 2) [(0, 1)] 1 300 1 false
        (fun _ => 0) false ⟨fun _ _ _ => 0, fun _ _ _ => 0, fun _ _ _ => 0⟩).2
      ≠ some "contractions not implemented for open path"
    ∧ (executeOpenPath 2 1 (fun _ => 1) (fun _ _ _ => 2) [(0, 1)] 1 300 1 false
        (fun _ => 0) false ⟨fun _ _ _ => 0, fun _ _ _ => 0, fun _ _ _ => 0⟩).2
      = some errOpenContraction
    ∧ (executeOpenPath 2 1 (fun _ => 1) (fun _ _ _ => 2) [(0, 1)] 1 300 1 false
        (fun _ => 0) false ⟨fun _ _ _ => 0, fun _ _ _ => 0, fun _ _ _ => 0⟩).1.forces
        0 0 0 = 1 := by
  have hrun : executeOpenPath 2 1 (fun _ => 1) (fun _ _ _ => 2) [(0, 1)] 1 300 1
      false (fun _ => 0) false ⟨fun _ _ _ => 0, fun _ _ _ => 0, fun _ _ _ => 0⟩
      = ({ gatherForces 2 1 (fun _ _ _ => 2)
            ⟨fun _ _ _ => 0, fun _ _ _ => 0, fun _ _ _ => 0⟩ with
          forces := halveEndpoints 2 1 (gatherForces 2 1 (fun _ _ _ => 2)
            ⟨fun _ _ _ => 0, fun _ _ _ => 0, fun _ _ _ => 0⟩).forces },
        some errOpenContraction) := by
    simp [executeOpenPath, cf_cons, andThen_error, andThen_ok, pureStep]
  refine ⟨?_, ?_, ?_⟩
  · rw [hrun]
    intro h
    have := Option.some.inj h
    rw [errOpenContraction] at this
    exact absurd this (by decide)
  · rw [hrun]
  · rw [hrun]
    show halveEndpoints 2 1 (gatherForces 2 1 (fun _ _ _ => 2)
      ⟨fun _ _ _ => 0, fun _ _ _ => 0, fun _ _ _ => 0⟩).forces 0 0 0 = 1
    simp only [halveEndpoints, gatherForces]
    norm_num

/-- **C4 (amended).**  If the contraction schedule is non-empty, every
call to the open-path step raises
`"Contractions are not implemented for LePIGS!"` (from inside the force
computation, after the full-`P` pass and endpoint halving have run); with
an empty schedule the step completes without error. -/
theorem open_contraction_error (P N : ℕ) (mass : ℕ → ℝ)
    (engine : (ℕ → ℕ → ℝ) → ℕ → ℕ → ℝ) (schedule : List (ℤ × ℕ))
    (dt temperature friction : ℝ) (applyThermostat : Bool) (rng : ℕ → ℝ)
    (forcesAreValid : Bool) (s : OpenState) :
    (schedule ≠ [] →
      (executeOpenPath P N mass engine schedule dt temperature friction
        applyThermostat rng forcesAreValid s).2 = some errOpenContraction)
    ∧ (executeOpenPath P N mass engine [] dt temperature friction
        applyThermostat rng forcesAreValid s).2 = none := by
  constructor
  · intro hne
    rcases schedule with _ | ⟨hd, tl⟩
    · exact absurd rfl hne
    · cases forcesAreValid
      · simp [executeOpenPath, cf_cons, andThen_error, andThen_ok, pureStep]
      · simp [executeOpenPath, cf_cons, andThen_error, andThen_ok, pureStep]
  · cases forcesAreValid
    · simp [executeOpenPath, cf_nil, andThen_error, andThen_ok, pureStep]
    · simp [executeOpenPath, cf_nil, andThen_error, andThen_ok, pureStep]

/-- Witness for `open_contraction_error`: schedule `[(0, 1)]` errors,
schedule `[]` does not. -/
theorem open_contraction_error_witness :
    (executeOpenPath 2 1 (fun _ => 1) (fun _ _ _ => 0) [(0, 1)] 1 300 1 false
        (fun _ => 0) false ⟨fun _ _ _ => 0, fun _ _ _ => 0, fun _ _ _ => 0⟩).2
      = some errOpenContraction
    ∧ (executeOpenPath 2 1 (fun _ => 1) (fun _ _ _ => 0) [] 1 300 1 false
        (fun _ => 0) false ⟨fun _ _ _ => 0, fun _ _ _ => 0, fun _ _ _ => 0⟩).2
      = none :=
  ⟨(open_contraction_error 2 1 (fun _ => 1) (fun _ _ _ => 0) [(0, 1)] 1 300 1
      false (fun _ => 0) false ⟨fun _ _ _ => 0, fun _ _ _ => 0, fun _ _ _ => 0⟩).1
      (by decide),
   (open_contraction_error 2 1 (fun _ => 1) (fun _ _ _ => 0) [(0, 1)] 1 300 1
      false (fun _ => 0) false ⟨fun _ _ _ => 0, fun _ _ _ => 0, fun _ _ _ => 0⟩).2⟩

/-- **C6, counterexample.**  For `P = 1` the single bead is both bead `0`
and bead `P−1`, so its force is multiplied by `1/2` twice — the factor is
`1/4`, not "exactly `1/2`". -/
theorem endpoint_halving_counterexample :
    halveEndpoints 1 1 (fun _ _ _ => (1 : ℝ)) 0 0 0 ≠ (1 / 2) * 1
    ∧ halveEndpoints 1 1 (fun _ _ _ => (1 : ℝ)) 0 0 0 = (1 / 4) * 1 := by
  constructor <;> norm_num [halveEndpoints]

/-- **C6 (amended).**  For `P ≥ 2`, after the full-`P` gathering pass and
before the contraction loop, the forces of bead `0` and bead `P−1` are
multiplied by exactly `1/2` for every particle, and no other bead receives
the factor; at `P = 1` the single bead is scaled twice (factor `1/4`). -/
theorem endpoint_halving (P N : ℕ) (hP : 2 ≤ P)
    (engine : (ℕ → ℕ → ℝ) → ℕ → ℕ → ℝ) (schedule : List (ℤ × ℕ))
    (s : OpenState) (F : ℕ → ℕ → ℕ → ℝ) (i j c : ℕ) (hj : j < N) :
    (halveEndpoints P N F i j c
      = if i = 0 ∨ i = P - 1 then 0.5 * F i j c else F i j c)
    ∧ (computeForcesOpenPath P N engine schedule s).1.forces
        = halveEndpoints P N (gatherForces P N engine s).forces := by
  constructor
  · simp only [halveEndpoints]
    by_cases h0 : i = 0
    · subst h0
      rw [if_neg (fun h => by omega), if_pos ⟨rfl, hj⟩, if_pos (Or.inl rfl)]
    · by_cases h1 : i = P - 1
      · rw [if_pos ⟨h1, hj⟩, if_neg (fun h => h0 h.1), if_pos (Or.inr h1)]
      · rw [if_neg (fun h => h1 h.1), if_neg (fun h => h0 h.1),
            if_neg (fun h => h.elim h0 h1)]
  · rcases schedule with _ | ⟨hd, tl⟩ <;> rfl

/-- Witness for `endpoint_halving` at `P = 2`, `N = 1`, bead `0`. -/
theorem endpoint_halving_witness :
    (halveEndpoints 2 1 (fun _ _ _ => (3 : ℝ)) 0 0 0
      = if 0 = 0 ∨ 0 = 2 - 1 then 0.5 * (fun _ _ _ => (3 : ℝ)) 0 0 0
        else (fun _ _ _ => (3 : ℝ)) 0 0 0)
    ∧ (computeForcesOpenPath 2 1 (fun _ _ _ => 0) []
        ⟨fun _ _ _ => 0, fun _ _ _ => 0, fun _ _ _ => 0⟩).1.forces
        = halveEndpoints 2 1 (gatherForces 2 1 (fun _ _ _ => 0)
            ⟨fun _ _ _ => 0, fun _ _ _ => 0, fun _ _ _ => 0⟩).forces :=
  endpoint_halving 2 1 (by omega) (fun _ _ _ => 0) []
    ⟨fun _ _ _ => 0, fun _ _ _ => 0, fun _ _ _ => 0⟩ (fun _ _ _ => 3) 0 0 0
    (by omega)

/-- **C9.**  A particle with zero mass is skipped by the thermostat, the
velocity half-kicks and the free-polymer drift: none of these stages reads
or writes its position or velocity entries, in any bead. -/
theorem zero_mass_untouched (P N : ℕ) (mass : ℕ → ℝ)
    (nkT twown halfdt friction dt : ℝ) (rng : ℕ → ℝ)
    (pos vel F : ℕ → ℕ → ℕ → ℝ) (i j c : ℕ) (hmass : mass j = 0) :
    thermostatClosedVel P N mass nkT twown halfdt friction rng vel i j c
      = vel i j c
    ∧ kickVelocities P N mass halfdt vel F i j c = vel i j c
    ∧ (driftClosedState P N mass twown dt pos vel).1 i j c = pos i j c
    ∧ (driftClosedState P N mass twown dt pos vel).2 i j c = vel i j c := by
  have hcond : ¬(i < P ∧ j < N ∧ mass j ≠ 0) := fun ⟨_, _, h⟩ => h hmass
  refine ⟨?_, ?_, ?_, ?_⟩
  · simp only [thermostatClosedVel]
    rw [if_neg hcond]
  · simp only [kickVelocities]
    rw [if_neg hcond]
  · simp only [driftClosedState]
    rw [if_neg hcond]
  · simp only [driftClosedState]
    rw [if_neg hcond]

/-- Witness for `zero_mass_untouched`: every particle massless. -/
theorem zero_mass_untouched_witness :
    thermostatClosedVel 2 1 (fun _ => 0) 1 1 1 1 (fun _ => 0) (fun _ _ _ => 5)
        0 0 0 = (fun _ _ _ => (5 : ℝ)) 0 0 0
    ∧ kickVelocities 2 1 (fun _ => 0) 1 (fun _ _ _ => 5) (fun _ _ _ => 7) 0 0 0
        = (fun _ _ _ => (5 : ℝ)) 0 0 0
    ∧ (driftClosedState 2 1 (fun _ => 0) 1 1 (fun _ _ _ => 3)
        (fun _ _ _ => 5)).1 0 0 0 = (fun _ _ _ => (3 : ℝ)) 0 0 0
    ∧ (driftClosedState 2 1 (fun _ => 0) 1 1 (fun _ _ _ => 3)
        (fun _ _ _ => 5)).2 0 0 0 = (fun _ _ _ => (5 : ℝ)) 0 0 0 :=
  zero_mass_untouched 2 1 (fun _ => 0) 1 1 1 1 1 (fun _ => 0) (fun _ _ _ => 3)
    (fun _ _ _ => 5) (fun _ _ _ => 7) 0 0 0 rfl

end Rpmd
